import Mathlib

/-!
Verification of the Kruskal minimum-spanning-forest implementation in
`kruskalalgorithm.py`.

The embedding is shallow: Python dictionaries become functions into `Option`
(a `none` result models a `KeyError` on a missing key), the recursive
`DisjointSetUnion.find` becomes a fuel-indexed recursion (the driver passes
fuel `|vertices| + 1`, and we prove that under the data-structure invariant
this fuel is never exhausted), and the `print` diagnostics of the driver
(empty-input error, disconnected-graph warning with its component count)
become the `KStatus` field of the returned record, since they are the only
observable report of those conditions.
-/

namespace KruskalSpec

/-- Failures of the embedded code: `unknownVertex` models a Python `KeyError`
on a missing dictionary key; `outOfFuel` is an artifact of the fuel-indexed
embedding of the recursive `find` and is proved unreachable under the
structure's invariant. -/
inductive DsuErr : Type
  | unknownVertex : DsuErr
  | outOfFuel : DsuErr
  deriving DecidableEq

/-- Embedding of class `GraphEdge` (lines 1-19): an immutable triple of a
weight and two endpoints.  The source field `end` is a Lean keyword, so it is
named `stop` here. -/
structure GraphEdge (V : Type) : Type where
  weight : Int
  start : V
  stop : V
  deriving DecidableEq

/-- Embedding of the state of class `DisjointSetUnion` (lines 22-60): the two
dictionaries `parent` and `rank`, as partial maps. -/
structure DisjointSetUnion (V : Type) : Type where
  parent : V → Option V
  rank : V → Option Nat

variable {V : Type} [DecidableEq V]

/-- Embedding of `DisjointSetUnion.__init__` (lines 23-30): every listed
vertex becomes its own parent with rank 0; nothing else is in the maps. -/
def dsuInit (vertices : List V) : DisjointSetUnion V :=
  ⟨fun v => if v ∈ vertices then some v else none,
   fun v => if v ∈ vertices then some 0 else none⟩

/-- Embedding of `DisjointSetUnion.find` (lines 32-41) on the parent map,
with explicit fuel for the recursion.  On success it returns the updated
parent map (path compression re-points the visited vertex directly to the
root) together with the root.  A raising Python `find` performs no
assignment (the assignment on line 40 happens only after the recursive call
returns), which the error branches reflect by discarding no state. -/
def findA : Nat → (V → Option V) → V → Except DsuErr ((V → Option V) × V)
  | 0, _, _ => .error .outOfFuel
  | fuel + 1, p, v =>
    match p v with
    | none => .error .unknownVertex
    | some u =>
      if u = v then .ok (p, v)
      else
        match findA fuel p u with
        | .error e => .error e
        | .ok (p1, r) => .ok (fun x => if x = v then some r else p1 x, r)

/-- `find` as an operation on the whole structure: on failure the state is
unchanged (a raising Python `find` never executes its assignment). -/
def findOp (fuel : Nat) (st : DisjointSetUnion V) (v : V) :
    DisjointSetUnion V × Except DsuErr V :=
  match findA fuel st.parent v with
  | .error e => (st, .error e)
  | .ok (p', r) => (⟨p', st.rank⟩, .ok r)

/-- Embedding of `DisjointSetUnion.union` (lines 43-60): find both roots; if
they differ, attach by rank, incrementing the surviving root's rank in the
equal case.  The rank lookups on lines 54-60 can themselves raise a
`KeyError`, hence the final error branch.  The returned state is the state
at the time of return or of the raised exception, so a failure after the
first successful `find` keeps that find's path compression. -/
def unionOp (fuel : Nat) (st : DisjointSetUnion V) (v1 v2 : V) :
    DisjointSetUnion V × Option DsuErr :=
  match findOp fuel st v1 with
  | (st1, .error e) => (st1, some e)
  | (st1, .ok root1) =>
    match findOp fuel st1 v2 with
    | (st2, .error e) => (st2, some e)
    | (st2, .ok root2) =>
      if root1 = root2 then (st2, none)
      else
        match st2.rank root1, st2.rank root2 with
        | some k1, some k2 =>
          if k1 > k2 then
            (⟨fun x => if x = root2 then some root1 else st2.parent x, st2.rank⟩, none)
          else if k1 < k2 then
            (⟨fun x => if x = root1 then some root2 else st2.parent x, st2.rank⟩, none)
          else
            (⟨fun x => if x = root2 then some root1 else st2.parent x,
              fun x => if x = root1 then some (k1 + 1) else st2.rank x⟩, none)
        | _, _ => (st2, some .unknownVertex)

/-- Status part of the result of `kruskal_mst`, modelling its printed
diagnostics: `insufficientInput` is the error message of line 72,
`disconnected c` is the warning of lines 92-93 with its component count, and
`spanning` is the silent (connected) outcome. -/
inductive KStatus : Type
  | insufficientInput : KStatus
  | spanning : KStatus
  | disconnected (components : Nat) : KStatus
  deriving DecidableEq

/-- Result record of `kruskal_mst`: the accepted edges in acceptance order,
their total weight, and the status. -/
structure KResult (V : Type) : Type where
  forest : List (GraphEdge V)
  total : Int
  status : KStatus

/-- Embedding of the sort on line 76: `sorted(edges, key=weight)` is a stable
sort ascending by weight; `List.insertionSort` is stable for this relation. -/
def sortEdges (edges : List (GraphEdge V)) : List (GraphEdge V) :=
  List.insertionSort (fun e f => e.weight ≤ f.weight) edges

/-- Embedding of the main loop (lines 82-87): for each edge, find both roots
(threading path compression); if they differ, union and accept the edge. -/
def kruskalLoop (fuel : Nat) (st : DisjointSetUnion V) (acc : List (GraphEdge V))
    (tot : Int) : List (GraphEdge V) →
    Except DsuErr (DisjointSetUnion V × List (GraphEdge V) × Int)
  | [] => .ok (st, acc, tot)
  | e :: rest =>
    match findOp fuel st e.start with
    | (_, .error er) => .error er
    | (st1, .ok r1) =>
      match findOp fuel st1 e.stop with
      | (_, .error er) => .error er
      | (st2, .ok r2) =>
        if r1 = r2 then kruskalLoop fuel st2 acc tot rest
        else
          match unionOp fuel st2 e.start e.stop with
          | (_, some er) => .error er
          | (st3, none) => kruskalLoop fuel st3 (acc ++ [e]) (tot + e.weight) rest

/-- Embedding of line 90: `set(dsu.find(vertex) for vertex in vertices)`,
collecting the roots of all vertices while threading the state. -/
def rootsLoop (fuel : Nat) (st : DisjointSetUnion V) : List V →
    Except DsuErr (DisjointSetUnion V × List V)
  | [] => .ok (st, [])
  | v :: vs =>
    match findOp fuel st v with
    | (_, .error er) => .error er
    | (st1, .ok r) =>
      match rootsLoop fuel st1 vs with
      | .error er => .error er
      | .ok (st2, rs) => .ok (st2, r :: rs)

/-- Embedding of `kruskal_mst` (lines 63-95).  The emptiness guard of lines
71-73 reports `insufficientInput`; otherwise the sorted edges are processed
through a fresh `DisjointSetUnion`, the distinct final roots are counted
(`set(...)` sizes are dedup lengths), and the disconnection warning of lines
91-93 becomes the `disconnected` status. -/
def kruskal_mst (vertices : List V) (edges : List (GraphEdge V)) :
    Except DsuErr (KResult V) :=
  if vertices.isEmpty || edges.isEmpty then .ok ⟨[], 0, .insufficientInput⟩
  else
    match kruskalLoop (vertices.length + 1) (dsuInit vertices) [] 0 (sortEdges edges) with
    | .error er => .error er
    | .ok (st, forest, tot) =>
      match rootsLoop (vertices.length + 1) st vertices with
      | .error er => .error er
      | .ok (_, roots) =>
        if roots.dedup.length > 1 then .ok ⟨forest, tot, .disconnected roots.dedup.length⟩
        else .ok ⟨forest, tot, .spanning⟩

/-! ### Specification-level notions

The following definitions are not part of the source; they are the reference
vocabulary (connectivity, spanning trees, partition labels) against which the
embedded code is verified. -/

/-- Pure root computation on a parent map (no compression), fuel-indexed. -/
def rootD (p : V → Option V) : Nat → V → Option V
  | 0, _ => none
  | fuel + 1, v =>
    match p v with
    | none => none
    | some u => if u = v then some v else rootD p fuel u

/-- The vertex `r` is the root reached from `v` by following parent links. -/
def RootedTo (p : V → Option V) (v r : V) : Prop :=
  ∃ k, rootD p k v = some r

/-- Merge the label class of `b` into the label of `a`: the reference model
of a single union, on total label maps. -/
def mergeLabels (f : V → V) (a b : V) : V → V :=
  fun v => if f v = f b then f a else f v

/-- Canonical label map generated by processing a list of merged pairs. -/
def labelsOf (ps : List (V × V)) : V → V :=
  ps.foldl (fun f q => mergeLabels f q.1 q.2) id

/-- Endpoint pairs of a list of edges, in order. -/
def pairsOf (E : List (GraphEdge V)) : List (V × V) :=
  E.map fun e => (e.start, e.stop)

/-- Reference acceptance function: the edges Kruskal accepts, decided purely
by the label partition of the previously accepted edges. -/
def kruskalSel (F : List (GraphEdge V)) : List (GraphEdge V) → List (GraphEdge V)
  | [] => F
  | e :: rest =>
    if labelsOf (pairsOf F) e.start = labelsOf (pairsOf F) e.stop
    then kruskalSel F rest
    else kruskalSel (F ++ [e]) rest

/-- Equivalence closure of a relation. -/
inductive EqC (R : V → V → Prop) : V → V → Prop
  | rel : ∀ {x y}, R x y → EqC R x y
  | refl : ∀ x, EqC R x x
  | symm : ∀ {x y}, EqC R x y → EqC R y x
  | trans : ∀ {x y z}, EqC R x y → EqC R y z → EqC R x z

/-- One-step adjacency generated by an edge list (in either direction). -/
def erel (E : List (GraphEdge V)) (x y : V) : Prop :=
  ∃ e ∈ E, (e.start = x ∧ e.stop = y) ∨ (e.start = y ∧ e.stop = x)

/-- One-step relation generated by a pair list (in either direction). -/
def prel (ps : List (V × V)) (x y : V) : Prop :=
  (x, y) ∈ ps ∨ (y, x) ∈ ps

/-- The edge list connects every two vertices of `vs`. -/
def Spans (E : List (GraphEdge V)) (vs : List V) : Prop :=
  ∀ x ∈ vs, ∀ y ∈ vs, EqC (erel E) x y

/-- A spanning tree of the graph `(vertices, edges)`: a selection of edges
(as a sub-multiset, so repeated input edges may be used as often as they
occur) that connects all vertices with exactly `|vertices| - 1` edges. -/
def IsSpanningTree (vertices : List V) (edges T : List (GraphEdge V)) : Prop :=
  T.Subperm edges ∧ Spans T vertices ∧ T.length = vertices.length - 1

/-- Total weight of a list of edges. -/
def sumW (E : List (GraphEdge V)) : Int :=
  (E.map GraphEdge.weight).sum

/-- Number of distinct connectivity classes that the edge list `E` induces on
the vertex list `vs`. -/
def labelClasses (E : List (GraphEdge V)) (vs : List V) : Nat :=
  ((vs.map (labelsOf (pairsOf E))).dedup).length

/-- Replay check for the returned forest: processing the edges in order
through a fresh structure, every edge's two roots are distinct at its turn
(and every lookup succeeds), exactly the test described by the spec. -/
def replayOk (fuel : Nat) (st : DisjointSetUnion V) : List (GraphEdge V) → Prop
  | [] => True
  | e :: rest =>
    match findOp fuel st e.start with
    | (_, .error _) => False
    | (st1, .ok r1) =>
      match findOp fuel st1 e.stop with
      | (_, .error _) => False
      | (st2, .ok r2) =>
        r1 ≠ r2 ∧
        match unionOp fuel st2 e.start e.stop with
        | (_, some _) => False
        | (st3, none) => replayOk fuel st3 rest

/-- Vertex identifiers of the demonstration block (lines 100-116).  The
source uses the one-character strings "a" … "i"; vertices are opaque
identifiers, modelled by an enumerated type. -/
inductive Vx : Type
  | a | b | c | d | e | f | g | h | i
  deriving DecidableEq

/-- The vertex list of the demonstration block (line 100). -/
def exVertices : List Vx :=
  [.a, .b, .c, .d, .e, .f, .g, .h, .i]

/-- The edge list of the demonstration block (lines 101-116), in source
order. -/
def exEdges : List (GraphEdge Vx) :=
  [⟨4, .a, .b⟩, ⟨8, .a, .h⟩, ⟨8, .b, .c⟩, ⟨11, .b, .h⟩, ⟨7, .c, .d⟩,
   ⟨4, .c, .f⟩, ⟨2, .c, .i⟩, ⟨6, .c, .g⟩, ⟨9, .d, .e⟩, ⟨14, .d, .f⟩,
   ⟨10, .e, .f⟩, ⟨2, .f, .g⟩, ⟨1, .g, .h⟩, ⟨7, .h, .i⟩]

/-- Strict comparison of the ranks of two vertices (both must be present). -/
def rankLt (rk : V → Option Nat) (v u : V) : Prop :=
  ∃ a b, rk v = some a ∧ rk u = some b ∧ a < b

/-- Boolean version of `rankLt`, for filtering. -/
def rankLtB (rk : V → Option Nat) (v u : V) : Bool :=
  match rk v, rk u with
  | some a, some b => a < b
  | _, _ => false

/-- Measure used to bound the recursion depth of `find`: the number of listed
vertices of strictly larger rank. -/
def mVal (rk : V → Option Nat) (vs : List V) (v : V) : Nat :=
  (vs.filter (fun w => rankLtB rk v w)).length

/-- Data-structure invariant of `DisjointSetUnion` over the vertex list `vs`:
both maps are defined exactly on `vs`, and every proper parent link strictly
increases the rank.  The latter makes every parent chain terminate at a
root. -/
structure DsuInv (vs : List V) (st : DisjointSetUnion V) : Prop where
  domP : ∀ v, (st.parent v).isSome ↔ v ∈ vs
  domR : ∀ v, (st.rank v).isSome ↔ v ∈ vs
  rkStep : ∀ v u, st.parent v = some u → u ≠ v → rankLt st.rank v u

/-- A map `p'` differs from `p` only by re-pointing vertices directly to
their own root: the shape of the update performed by path compression. -/
def Compresses (p p' : V → Option V) : Prop :=
  ∀ x, p' x = p x ∨ ∃ r, p' x = some r ∧ RootedTo p x r

/-- States reachable from construction over `vs` by any sequence of `find`
and `union` calls on known vertices, with any fuel. -/
inductive Reachable (vs : List V) : DisjointSetUnion V → Prop
  | init : Reachable vs (dsuInit vs)
  | findStep : ∀ {st} (fuel : Nat) {v}, Reachable vs st → v ∈ vs →
      Reachable vs (findOp fuel st v).1
  | unionStep : ∀ {st} (fuel : Nat) {v1 v2}, Reachable vs st → v1 ∈ vs → v2 ∈ vs →
      Reachable vs (unionOp fuel st v1 v2).1

/-- Rename the value `β` to `α`, leaving every other value unchanged. -/
def relabel (α β z : V) : V :=
  if z = β then α else z

/-- The root assignment of `p` and the label map `f` induce the same
partition on the vertices of `vs`. -/
def KernelInv (vs : List V) (p : V → Option V) (f : V → V) : Prop :=
  ∀ x, x ∈ vs → ∀ y, y ∈ vs → ∀ rx ry, RootedTo p x rx → RootedTo p y ry →
    (rx = ry ↔ f x = f y)

/-! ### Lemmas on pure root computation -/

theorem rootD_succ_of_eq {p : V → Option V} {k : Nat} {v r : V}
    (h : rootD p k v = some r) : rootD p (k + 1) v = some r := by
  induction k generalizing v with
  | zero => simp [rootD] at h
  | succ k ih =>
    rw [rootD] at h ⊢
    cases hp : p v with
    | none => simp [hp] at h
    | some u =>
      simp only [hp] at h ⊢
      by_cases hu : u = v
      · simpa [hu] using h
      · simp only [if_neg hu] at h ⊢
        exact ih h

theorem rootD_mono {p : V → Option V} {k k' : Nat} {v r : V}
    (hk : k ≤ k') (h : rootD p k v = some r) : rootD p k' v = some r := by
  induction hk with
  | refl => exact h
  | step _ ih => exact rootD_succ_of_eq ih

theorem RootedTo.unique {p : V → Option V} {v r r' : V}
    (h : RootedTo p v r) (h' : RootedTo p v r') : r = r' := by
  obtain ⟨k, hk⟩ := h
  obtain ⟨k', hk'⟩ := h'
  rcases Nat.le_total k k' with hle | hle
  · have := rootD_mono hle hk
    rw [this] at hk'; exact (Option.some.inj hk')
  · have := rootD_mono hle hk'
    rw [this] at hk; exact (Option.some.inj hk).symm

theorem RootedTo.isRoot {p : V → Option V} {v r : V}
    (h : RootedTo p v r) : p r = some r := by
  obtain ⟨k, hk⟩ := h
  induction k generalizing v with
  | zero => simp [rootD] at hk
  | succ k ih =>
    rw [rootD] at hk
    cases hp : p v with
    | none => simp [hp] at hk
    | some u =>
      simp only [hp] at hk
      by_cases hu : u = v
      · simp only [if_pos hu] at hk
        have hv := Option.some.inj hk
        subst hv
        subst hu
        exact hp
      · simp only [if_neg hu] at hk
        exact ih hk

theorem RootedTo.self {p : V → Option V} {r : V} (h : p r = some r) :
    RootedTo p r r :=
  ⟨1, by simp [rootD, h]⟩

theorem RootedTo.step {p : V → Option V} {v u r : V} (hp : p v = some u)
    (hne : u ≠ v) (h : RootedTo p u r) : RootedTo p v r := by
  obtain ⟨k, hk⟩ := h
  exact ⟨k + 1, by simp only [rootD, hp, if_neg hne]; exact hk⟩

theorem RootedTo.dom {p : V → Option V} {v r : V} (h : RootedTo p v r) :
    (p v).isSome := by
  obtain ⟨k, hk⟩ := h
  cases k with
  | zero => simp [rootD] at hk
  | succ k =>
    rw [rootD] at hk
    cases hp : p v with
    | none => simp [hp] at hk
    | some u => simp [hp]

theorem RootedTo.of_parent {p : V → Option V} {v u r : V} (hp : p v = some u)
    (hne : u ≠ v) (h : RootedTo p v r) : RootedTo p u r := by
  obtain ⟨k, hk⟩ := h
  cases k with
  | zero => simp [rootD] at hk
  | succ k =>
    simp only [rootD, hp, if_neg hne] at hk
    exact ⟨k, hk⟩

/-! ### Soundness of the embedded `find` -/

theorem findA_ok_char {fuel : Nat} {p p' : V → Option V} {v r : V}
    (h : findA fuel p v = .ok (p', r)) :
    RootedTo p v r ∧ ∀ x, p' x = p x ∨ (p' x = some r ∧ RootedTo p x r) := by
  induction fuel generalizing p p' v r with
  | zero => simp [findA] at h
  | succ fuel ih =>
    rw [findA] at h
    cases hp : p v with
    | none => simp [hp] at h
    | some u =>
      simp only [hp] at h
      by_cases hu : u = v
      · simp only [if_pos hu] at h
        obtain ⟨hp', hr⟩ : p = p' ∧ v = r := by
          cases h; exact ⟨rfl, rfl⟩
        subst hp'; subst hr
        subst hu
        exact ⟨RootedTo.self hp, fun x => Or.inl rfl⟩
      · simp only [if_neg hu] at h
        cases hrec : findA fuel p u with
        | error e => rw [hrec] at h; cases h
        | ok q =>
          obtain ⟨p1, r1⟩ := q
          rw [hrec] at h
          obtain ⟨hp', hr⟩ : (fun x => if x = v then some r1 else p1 x) = p' ∧ r1 = r := by
            cases h; exact ⟨rfl, rfl⟩
          subst hr
          obtain ⟨hroot, hupd⟩ := ih hrec
          have hv : RootedTo p v r1 := RootedTo.step hp hu hroot
          refine ⟨hv, fun x => ?_⟩
          rw [← hp']
          by_cases hx : x = v
          · subst hx
            exact Or.inr ⟨by simp, hv⟩
          · simp only [if_neg hx]
            exact hupd x

theorem findA_ok_root {fuel : Nat} {p p' : V → Option V} {v r : V}
    (h : findA fuel p v = .ok (p', r)) : RootedTo p v r :=
  (findA_ok_char h).1

theorem findA_ok_compress {fuel : Nat} {p p' : V → Option V} {v r : V}
    (h : findA fuel p v = .ok (p', r)) : Compresses p p' :=
  fun x => ((findA_ok_char h).2 x).elim Or.inl (fun ⟨h1, h2⟩ => Or.inr ⟨r, h1, h2⟩)

theorem Compresses.none_iff {p p' : V → Option V} (hc : Compresses p p') (x : V) :
    p' x = none ↔ p x = none := by
  rcases hc x with h | ⟨r, h1, h2⟩
  · rw [h]
  · constructor
    · intro h0; rw [h0] at h1; cases h1
    · intro h0
      have := h2.dom
      rw [h0] at this; cases this

theorem Compresses.rooted_self {p p' : V → Option V} (hc : Compresses p p') {w : V}
    (hpw : p w = some w) : RootedTo p' w w := by
  rcases hc w with h' | ⟨r, h1, h2⟩
  · exact RootedTo.self (h'.trans hpw)
  · have hr : r = w := h2.unique (RootedTo.self hpw)
    rw [hr] at h1
    exact RootedTo.self h1

theorem Compresses.rooted {p p' : V → Option V} (hc : Compresses p p') {w ρ : V}
    (h : RootedTo p w ρ) : RootedTo p' w ρ := by
  obtain ⟨k, hk⟩ := h
  induction k generalizing w with
  | zero => simp [rootD] at hk
  | succ k ih =>
    rw [rootD] at hk
    cases hp : p w with
    | none => simp [hp] at hk
    | some u =>
      simp only [hp] at hk
      by_cases hu : u = w
      · simp only [if_pos hu] at hk
        have hw : w = ρ := Option.some.inj hk
        have hpw : p w = some w := by rw [hp, hu]
        have hres : RootedTo p' w w := hc.rooted_self hpw
        rw [← hw]
        exact hres
      · simp only [if_neg hu] at hk
        have hroot : RootedTo p' u ρ := ih hk
        have hwρ : RootedTo p w ρ := RootedTo.step hp hu ⟨k, hk⟩
        rcases hc w with h' | ⟨r, h1, h2⟩
        · exact RootedTo.step (h'.trans hp) hu hroot
        · have hrρ : r = ρ := h2.unique hwρ
          rw [hrρ] at h1
          by_cases hwr : ρ = w
          · rw [← hwr]
            exact hc.rooted_self (hwr ▸ hwρ.isRoot)
          · exact RootedTo.step h1 hwr (hc.rooted_self hwρ.isRoot)

/-! ### Totality of `find` under the invariant -/

omit [DecidableEq V] in
theorem rankLt_iff_rankLtB {rk : V → Option Nat} {v u : V} :
    rankLt rk v u ↔ rankLtB rk v u = true := by
  unfold rankLt rankLtB
  cases hv : rk v with
  | none => simp
  | some a =>
    cases hu : rk u with
    | none => simp
    | some b => simp

omit [DecidableEq V] in
theorem rankLt.trans {rk : V → Option Nat} {v u w : V}
    (h1 : rankLt rk v u) (h2 : rankLt rk u w) : rankLt rk v w := by
  obtain ⟨a, b, ha, hb, hab⟩ := h1
  obtain ⟨b', c, hb', hc, hbc⟩ := h2
  rw [hb] at hb'
  exact ⟨a, c, ha, hc, lt_trans hab ((Option.some.inj hb') ▸ hbc)⟩

theorem filter_length_lt {α : Type} {l : List α} {P Q : α → Bool}
    (hmono : ∀ a, Q a = true → P a = true) {u : α} (hu : u ∈ l)
    (hP : P u = true) (hQ : Q u = false) :
    (l.filter Q).length < (l.filter P).length := by
  induction l with
  | nil => cases hu
  | cons x t ih =>
    rcases List.mem_cons.1 hu with hx | ht
    · subst hx
      have hle : (t.filter Q).length ≤ (t.filter P).length :=
        (List.monotone_filter_right t hmono).length_le
      simp only [List.filter_cons, hP, hQ]
      simpa using Nat.lt_succ_of_le hle
    · simp only [List.filter_cons]
      cases hQx : Q x with
      | true =>
        simp only [hQx, hmono x hQx, if_true]
        simpa using Nat.succ_lt_succ (ih ht)
      | false =>
        cases hPx : P x with
        | true =>
          simp only [hQx, hPx]
          simp only [if_true, Bool.false_eq_true, if_false]
          exact lt_trans (ih ht) (by simp)
        | false =>
          simp only [hQx, hPx, Bool.false_eq_true, if_false]
          exact ih ht

omit [DecidableEq V] in
theorem mVal_lt {vs : List V} {st : DisjointSetUnion V} (hinv : DsuInv vs st)
    {v u : V} (hp : st.parent v = some u) (hne : u ≠ v) :
    mVal st.rank vs u < mVal st.rank vs v := by
  have hvu : rankLt st.rank v u := hinv.rkStep v u hp hne
  have humem : u ∈ vs := by
    obtain ⟨a, b, _, hb, _⟩ := hvu
    exact (hinv.domR u).1 (by rw [hb]; rfl)
  refine filter_length_lt (fun w hw => ?_) humem
    (rankLt_iff_rankLtB.1 hvu) ?_
  · exact rankLt_iff_rankLtB.1 (hvu.trans (rankLt_iff_rankLtB.2 hw))
  · cases hq : rankLtB st.rank u u with
    | false => rfl
    | true =>
      obtain ⟨a, b, ha, hb, hab⟩ := rankLt_iff_rankLtB.2 hq
      rw [ha] at hb
      exact absurd ((Option.some.inj hb) ▸ hab) (lt_irrefl a)

theorem findA_total {vs : List V} {st : DisjointSetUnion V} (hinv : DsuInv vs st)
    {v : V} (hv : v ∈ vs) {fuel : Nat} (hfuel : mVal st.rank vs v < fuel) :
    ∃ p' r, findA fuel st.parent v = .ok (p', r) := by
  induction fuel generalizing v with
  | zero => cases hfuel
  | succ fuel ih =>
    have hsome : (st.parent v).isSome := (hinv.domP v).2 hv
    cases hp : st.parent v with
    | none => rw [hp] at hsome; cases hsome
    | some u =>
      by_cases hu : u = v
      · exact ⟨st.parent, v, by simp only [findA, hp]; rw [if_pos hu]⟩
      · have humem : u ∈ vs := by
          obtain ⟨a, b, _, hb, _⟩ := hinv.rkStep v u hp hu
          exact (hinv.domR u).1 (by rw [hb]; rfl)
        have hmu : mVal st.rank vs u < fuel :=
          lt_of_lt_of_le (mVal_lt hinv hp hu) (Nat.lt_succ_iff.1 hfuel)
        obtain ⟨p', r, hrec⟩ := ih humem hmu
        exact ⟨_, r, by simp only [findA, hp]; rw [if_neg hu, hrec]⟩

omit [DecidableEq V] in
theorem mVal_le_length {rk : V → Option Nat} {vs : List V} (v : V) :
    mVal rk vs v ≤ vs.length :=
  List.length_filter_le _ vs

theorem findA_total_len {vs : List V} {st : DisjointSetUnion V}
    (hinv : DsuInv vs st) {v : V} (hv : v ∈ vs) :
    ∃ p' r, findA (vs.length + 1) st.parent v = .ok (p', r) :=
  findA_total hinv hv (Nat.lt_succ_of_le (mVal_le_length v))

theorem root_exists {vs : List V} {st : DisjointSetUnion V} (hinv : DsuInv vs st)
    {v : V} (hv : v ∈ vs) : ∃ r, RootedTo st.parent v r ∧ r ∈ vs := by
  obtain ⟨p', r, h⟩ := findA_total_len hinv hv
  have hr := findA_ok_root h
  refine ⟨r, hr, (hinv.domP r).1 ?_⟩
  rw [hr.isRoot]; rfl

theorem rank_lt_root_aux {vs : List V} {st : DisjointSetUnion V}
    (hinv : DsuInv vs st) (k : Nat) :
    ∀ x r, rootD st.parent k x = some r → x ≠ r → rankLt st.rank x r := by
  induction k with
  | zero => intro x r hk; simp [rootD] at hk
  | succ k ih =>
    intro x r hk hne
    rw [rootD] at hk
    cases hp : st.parent x with
    | none => simp [hp] at hk
    | some u =>
      simp only [hp] at hk
      by_cases hu : u = x
      · simp only [if_pos hu] at hk
        exact absurd (Option.some.inj hk) hne
      · simp only [if_neg hu] at hk
        have hxu : rankLt st.rank x u := hinv.rkStep x u hp hu
        by_cases hur : u = r
        · rw [← hur]; exact hxu
        · exact hxu.trans (ih u r hk hur)

theorem rank_lt_root {vs : List V} {st : DisjointSetUnion V} (hinv : DsuInv vs st)
    {x r : V} (h : RootedTo st.parent x r) (hne : x ≠ r) :
    rankLt st.rank x r := by
  obtain ⟨k, hk⟩ := h
  exact rank_lt_root_aux hinv k x r hk hne

/-- Domains are unchanged by compression. -/
theorem Compresses.isSome_iff {p p' : V → Option V} (hc : Compresses p p') (x : V) :
    (p' x).isSome ↔ (p x).isSome := by
  rcases hc x with h' | ⟨r', h1, h2⟩
  · rw [h']
  · rw [h1]
    simp [h2.dom]

/-- The invariant is preserved by a successful `find`. -/
theorem DsuInv.find {vs : List V} {st : DisjointSetUnion V} (hinv : DsuInv vs st)
    {fuel : Nat} {p' : V → Option V} {v r : V}
    (h : findA fuel st.parent v = .ok (p', r)) :
    DsuInv vs (⟨p', st.rank⟩ : DisjointSetUnion V) := by
  have hc := findA_ok_compress h
  have hdomP : ∀ x, (p' x).isSome ↔ x ∈ vs := fun x =>
    (hc.isSome_iff x).trans (hinv.domP x)
  have hrk : ∀ x u, p' x = some u → u ≠ x → rankLt st.rank x u := by
    intro x u hp hne
    rcases (findA_ok_char h).2 x with h' | ⟨h1, h2⟩
    · exact hinv.rkStep x u (h' ▸ hp) hne
    · rw [hp] at h1
      have hur : u = r := Option.some.inj h1
      subst hur
      exact rank_lt_root hinv h2 (fun hxr => hne hxr.symm)
  exact ⟨hdomP, hinv.domR, hrk⟩

/-- Bundled totality and soundness of `findOp` under the invariant. -/
theorem findOp_total {vs : List V} {st : DisjointSetUnion V} (hinv : DsuInv vs st)
    {v : V} (hv : v ∈ vs) :
    ∃ st' r, findOp (vs.length + 1) st v = (st', .ok r) ∧ DsuInv vs st' ∧
      Compresses st.parent st'.parent ∧ RootedTo st.parent v r ∧
      st'.rank = st.rank := by
  obtain ⟨p', r, h⟩ := findA_total_len hinv hv
  refine ⟨⟨p', st.rank⟩, r, ?_, hinv.find h, findA_ok_compress h, findA_ok_root h, rfl⟩
  unfold findOp
  rw [h]

/-! ### Effect of attaching one root below another -/

/-- After re-pointing the root `t` to the root `s`, the root of every vertex
is its old root, with `t` renamed to `s`. -/
theorem rooted_update {p p' : V → Option V} {s t : V}
    (hps : p s = some s) (hpt : p t = some t) (hst : s ≠ t)
    (hp' : ∀ x, p' x = if x = t then some s else p x) {w ρ : V}
    (h : RootedTo p w ρ) : RootedTo p' w (if ρ = t then s else ρ) := by
  have hs' : p' s = some s := by rw [hp' s, if_neg hst]; exact hps
  have hts : RootedTo p' t s :=
    RootedTo.step (by rw [hp' t, if_pos rfl]) hst (RootedTo.self hs')
  obtain ⟨k, hk⟩ := h
  induction k generalizing w with
  | zero => simp [rootD] at hk
  | succ k ih =>
    rw [rootD] at hk
    cases hpw : p w with
    | none => simp [hpw] at hk
    | some u =>
      simp only [hpw] at hk
      by_cases hu : u = w
      · simp only [if_pos hu] at hk
        have hwρ : w = ρ := Option.some.inj hk
        by_cases hwt : w = t
        · rw [← hwρ, if_pos hwt, hwt]
          exact hts
        · rw [← hwρ, if_neg hwt]
          exact RootedTo.self (by rw [hp' w, if_neg hwt, hpw, hu])
      · simp only [if_neg hu] at hk
        have hwt : w ≠ t := by
          intro hwt
          rw [hwt, hpt] at hpw
          exact hu ((Option.some.inj hpw).symm.trans hwt.symm)
        exact RootedTo.step (by rw [hp' w, if_neg hwt]; exact hpw) hu (ih hk)

/-- Attaching root `t` under a strictly higher-ranked root `s` preserves the
invariant (the rank map is unchanged). -/
theorem DsuInv.attach {vs : List V} {st : DisjointSetUnion V} (hinv : DsuInv vs st)
    {s t : V} (hpt : st.parent t = some t)
    (hr : rankLt st.rank t s) {p' : V → Option V}
    (hp' : ∀ x, p' x = if x = t then some s else st.parent x) :
    DsuInv vs (⟨p', st.rank⟩ : DisjointSetUnion V) := by
  have hdom : ∀ x, (p' x).isSome ↔ x ∈ vs := by
    intro x
    rw [hp' x]
    by_cases hx : x = t
    · rw [if_pos hx, hx, ← hinv.domP t, hpt]
      simp
    · rw [if_neg hx]
      exact hinv.domP x
  have hstep : ∀ x u, p' x = some u → u ≠ x → rankLt st.rank x u := by
    intro x u hp hne
    rw [hp' x] at hp
    by_cases hx : x = t
    · rw [if_pos hx] at hp
      have hus : u = s := (Option.some.inj hp).symm
      rw [hus, hx]
      exact hr
    · rw [if_neg hx] at hp
      exact hinv.rkStep x u hp hne
  exact ⟨hdom, hinv.domR, hstep⟩

/-- Attaching root `t` under the equally-ranked root `s` and bumping the
rank of `s` preserves the invariant. -/
theorem DsuInv.attachBump {vs : List V} {st : DisjointSetUnion V}
    (hinv : DsuInv vs st) {s t : V} {k : Nat}
    (hps : st.parent s = some s) (hpt : st.parent t = some t) (hst : s ≠ t)
    (hrs : st.rank s = some k) (hrt : st.rank t = some k)
    {p' : V → Option V} {rk' : V → Option Nat}
    (hp' : ∀ x, p' x = if x = t then some s else st.parent x)
    (hrk' : ∀ x, rk' x = if x = s then some (k + 1) else st.rank x) :
    DsuInv vs (⟨p', rk'⟩ : DisjointSetUnion V) := by
  have hdom : ∀ x, (p' x).isSome ↔ x ∈ vs := by
    intro x
    rw [hp' x]
    by_cases hx : x = t
    · rw [if_pos hx, hx, ← hinv.domP t, hpt]
      simp
    · rw [if_neg hx]
      exact hinv.domP x
  have hdomr : ∀ x, (rk' x).isSome ↔ x ∈ vs := by
    intro x
    rw [hrk' x]
    by_cases hx : x = s
    · rw [if_pos hx, hx, ← hinv.domR s, hrs]
      simp
    · rw [if_neg hx]
      exact hinv.domR x
  have hstep : ∀ x u, p' x = some u → u ≠ x → rankLt rk' x u := by
    intro x u hp hne
    rw [hp' x] at hp
    by_cases hx : x = t
    · rw [if_pos hx] at hp
      have hus : u = s := (Option.some.inj hp).symm
      refine ⟨k, k + 1, ?_, ?_, Nat.lt_succ_self k⟩
      · rw [hrk' x, if_neg (fun hxs => hst (hxs.symm.trans hx)), hx]
        exact hrt
      · rw [hrk' u, hus, if_pos rfl]
    · rw [if_neg hx] at hp
      obtain ⟨a, b, ha, hb, hab⟩ := hinv.rkStep x u hp hne
      have hxs : x ≠ s := by
        intro hxs
        rw [hxs, hps] at hp
        exact hne ((Option.some.inj hp).symm.trans hxs.symm)
      refine ⟨a, if u = s then k + 1 else b, ?_, ?_, ?_⟩
      · rw [hrk' x, if_neg hxs]
        exact ha
      · rw [hrk' u]
        by_cases hus : u = s
        · rw [if_pos hus, if_pos hus]
        · rw [if_neg hus, if_neg hus]
          exact hb
      · by_cases hus : u = s
        · rw [if_pos hus]
          rw [hus, hrs] at hb
          have : b = k := (Option.some.inj hb).symm
          rw [this] at hab
          exact Nat.lt_succ_of_lt hab
        · rw [if_neg hus]
          exact hab
  exact ⟨hdom, hdomr, hstep⟩

/-- Bundled totality and soundness of `unionOp` under the invariant: with
both arguments known, the call succeeds, preserves the invariant, and its
effect on the root assignment is either nothing (equal roots) or the
renaming of one of the two roots to the other. -/
theorem unionOp_total {vs : List V} {st : DisjointSetUnion V} (hinv : DsuInv vs st)
    {a b : V} (ha : a ∈ vs) (hb : b ∈ vs) {ra rb : V}
    (hra : RootedTo st.parent a ra) (hrb : RootedTo st.parent b rb) :
    ∃ st', unionOp (vs.length + 1) st a b = (st', none) ∧ DsuInv vs st' ∧
      ((ra = rb ∧ ∀ w ρ, RootedTo st.parent w ρ → RootedTo st'.parent w ρ) ∨
       (ra ≠ rb ∧ ∃ s t, ((s = ra ∧ t = rb) ∨ (s = rb ∧ t = ra)) ∧
         ∀ w ρ, RootedTo st.parent w ρ →
           RootedTo st'.parent w (if ρ = t then s else ρ))) := by
  obtain ⟨st1, r1, hf1, hinv1, hc1, hroot1, hrk1⟩ := findOp_total hinv ha
  have hr1 : r1 = ra := hroot1.unique hra
  subst hr1
  obtain ⟨st2, r2, hf2, hinv2, hc2, hroot2, hrk2⟩ := findOp_total hinv1 hb
  have hr2 : r2 = rb := hroot2.unique (hc1.rooted hrb)
  subst hr2
  have hrkst : st2.rank = st.rank := hrk2.trans hrk1
  have hmove : ∀ w ρ, RootedTo st.parent w ρ → RootedTo st2.parent w ρ :=
    fun w ρ h => hc2.rooted (hc1.rooted h)
  have hpa : st2.parent r1 = some r1 := (hmove a r1 hra).isRoot
  have hpb : st2.parent r2 = some r2 := (hmove b r2 hrb).isRoot
  have hamem : r1 ∈ vs := (hinv.domP r1).1 (by rw [hra.isRoot]; rfl)
  have hbmem : r2 ∈ vs := (hinv.domP r2).1 (by rw [hrb.isRoot]; rfl)
  obtain ⟨k1, hk1⟩ : ∃ k1, st2.rank r1 = some k1 := by
    have := (hinv2.domR r1).2 hamem
    cases h : st2.rank r1 with
    | none => rw [h] at this; cases this
    | some k => exact ⟨k, rfl⟩
  obtain ⟨k2, hk2⟩ : ∃ k2, st2.rank r2 = some k2 := by
    have := (hinv2.domR r2).2 hbmem
    cases h : st2.rank r2 with
    | none => rw [h] at this; cases this
    | some k => exact ⟨k, rfl⟩
  by_cases hab : r1 = r2
  · refine ⟨st2, ?_, hinv2, Or.inl ⟨hab, hmove⟩⟩
    simp only [unionOp, hf1, hf2, if_pos hab]
  · by_cases hgt : k1 > k2
    · refine ⟨⟨fun x => if x = r2 then some r1 else st2.parent x, st2.rank⟩, ?_, ?_, ?_⟩
      · simp only [unionOp, hf1, hf2, if_neg hab, hk1, hk2, if_pos hgt]
      · exact hinv2.attach hpb ⟨k2, k1, hk2, hk1, hgt⟩ (fun x => rfl)
      · refine Or.inr ⟨hab, r1, r2, Or.inl ⟨rfl, rfl⟩, fun w ρ h => ?_⟩
        exact rooted_update hpa hpb hab (fun x => rfl) (hmove w ρ h)
    · by_cases hlt : k1 < k2
      · refine ⟨⟨fun x => if x = r1 then some r2 else st2.parent x, st2.rank⟩, ?_, ?_, ?_⟩
        · simp only [unionOp, hf1, hf2, if_neg hab, hk1, hk2, if_neg hgt, if_pos hlt]
        · exact hinv2.attach hpa ⟨k1, k2, hk1, hk2, hlt⟩ (fun x => rfl)
        · refine Or.inr ⟨hab, r2, r1, Or.inr ⟨rfl, rfl⟩, fun w ρ h => ?_⟩
          exact rooted_update hpb hpa (fun h' => hab h'.symm) (fun x => rfl) (hmove w ρ h)
      · have hkeq : k2 = k1 := Nat.le_antisymm (Nat.le_of_not_lt hlt) (Nat.le_of_not_lt hgt)
        subst hkeq
        refine ⟨⟨fun x => if x = r2 then some r1 else st2.parent x,
                 fun x => if x = r1 then some (k2 + 1) else st2.rank x⟩, ?_, ?_, ?_⟩
        · simp only [unionOp, hf1, hf2, if_neg hab, hk1, hk2, if_neg hgt, if_neg hlt]
        · exact hinv2.attachBump hpa hpb hab hk1 hk2 (fun x => rfl) (fun x => rfl)
        · refine Or.inr ⟨hab, r1, r2, Or.inl ⟨rfl, rfl⟩, fun w ρ h => ?_⟩
          exact rooted_update hpa hpb hab (fun x => rfl) (hmove w ρ h)

/-! ### The kernel bridge: DSU roots compute the label partition -/

theorem relabel_eq_iff {α β u w : V} :
    relabel α β u = relabel α β w ↔
      (u = w ∨ ((u = α ∨ u = β) ∧ (w = α ∨ w = β))) := by
  unfold relabel
  by_cases hu : u = β <;> by_cases hw : w = β
  · rw [if_pos hu, if_pos hw]
    constructor
    · intro _; exact Or.inl (hu.trans hw.symm)
    · intro _; rfl
  · rw [if_pos hu, if_neg hw]
    constructor
    · intro h; exact Or.inr ⟨Or.inr hu, Or.inl h.symm⟩
    · rintro (h | ⟨h1, h2 | h2⟩)
      · exact absurd (h.symm.trans hu) hw
      · exact h2.symm
      · exact absurd h2 hw
  · rw [if_neg hu, if_pos hw]
    constructor
    · intro h; exact Or.inr ⟨Or.inl h, Or.inr hw⟩
    · rintro (h | ⟨h1 | h1, h2⟩)
      · exact absurd (h.trans hw) hu
      · exact h1
      · exact absurd h1 hu
  · rw [if_neg hu, if_neg hw]
    constructor
    · intro h; exact Or.inl h
    · rintro (h | ⟨h1 | h1, h2 | h2⟩)
      · exact h
      · exact h1.trans h2.symm
      · exact absurd h2 hw
      · exact absurd h1 hu
      · exact absurd h1 hu

theorem dsuInit_rooted {vs : List V} {v : V} (hv : v ∈ vs) :
    RootedTo (dsuInit vs).parent v v :=
  RootedTo.self (by simp [dsuInit, hv])

theorem dsuInit_inv (vs : List V) : DsuInv vs (dsuInit vs) := by
  refine ⟨fun v => ?_, fun v => ?_, fun v u hp hne => ?_⟩
  · by_cases hv : v ∈ vs <;> simp [dsuInit, hv]
  · by_cases hv : v ∈ vs <;> simp [dsuInit, hv]
  · simp only [dsuInit] at hp
    by_cases hv : v ∈ vs
    · rw [if_pos hv] at hp
      exact absurd (Option.some.inj hp).symm hne
    · rw [if_neg hv] at hp
      cases hp

theorem dsuInit_kernel (vs : List V) : KernelInv vs (dsuInit vs).parent id := by
  intro x hx y hy rx ry hrx hry
  have h1 : rx = x := hrx.unique (dsuInit_rooted hx)
  have h2 : ry = y := hry.unique (dsuInit_rooted hy)
  rw [h1, h2]
  simp

theorem KernelInv.compress {vs : List V} {p p' : V → Option V} {f : V → V}
    (hker : KernelInv vs p f) (hex : ∀ v, v ∈ vs → ∃ r, RootedTo p v r)
    (hc : Compresses p p') : KernelInv vs p' f := by
  intro x hx y hy rx' ry' hrx' hry'
  obtain ⟨rx, hrx⟩ := hex x hx
  obtain ⟨ry, hry⟩ := hex y hy
  have h1 : rx' = rx := hrx'.unique (hc.rooted hrx)
  have h2 : ry' = ry := hry'.unique (hc.rooted hry)
  rw [h1, h2]
  exact hker x hx y hy rx ry hrx hry

theorem KernelInv.union_update {vs : List V} {p p' : V → Option V} {f : V → V}
    (hker : KernelInv vs p f) (hex : ∀ v, v ∈ vs → ∃ r, RootedTo p v r)
    {a b : V} (ha : a ∈ vs) (hb : b ∈ vs) {r1 r2 : V}
    (hra : RootedTo p a r1) (hrb : RootedTo p b r2)
    {s t : V} (hst : (s = r1 ∧ t = r2) ∨ (s = r2 ∧ t = r1))
    (hmap : ∀ w ρ, RootedTo p w ρ → RootedTo p' w (if ρ = t then s else ρ)) :
    KernelInv vs p' (mergeLabels f a b) := by
  intro x hx y hy rx' ry' hrx' hry'
  obtain ⟨rx, hrx⟩ := hex x hx
  obtain ⟨ry, hry⟩ := hex y hy
  have h1 : rx' = relabel s t rx := hrx'.unique (hmap x rx hrx)
  have h2 : ry' = relabel s t ry := hry'.unique (hmap y ry hry)
  rw [h1, h2]
  have hmx : mergeLabels f a b x = relabel (f a) (f b) (f x) := rfl
  have hmy : mergeLabels f a b y = relabel (f a) (f b) (f y) := rfl
  rw [hmx, hmy, relabel_eq_iff, relabel_eq_iff]
  have e1 : rx = ry ↔ f x = f y := hker x hx y hy rx ry hrx hry
  have ex1 : rx = r1 ↔ f x = f a := hker x hx a ha rx r1 hrx hra
  have ex2 : rx = r2 ↔ f x = f b := hker x hx b hb rx r2 hrx hrb
  have ey1 : ry = r1 ↔ f y = f a := hker y hy a ha ry r1 hry hra
  have ey2 : ry = r2 ↔ f y = f b := hker y hy b hb ry r2 hry hrb
  have e2 : (rx = s ∨ rx = t) ↔ (f x = f a ∨ f x = f b) := by
    rcases hst with ⟨hs, ht⟩ | ⟨hs, ht⟩ <;> rw [hs, ht]
    · exact or_congr ex1 ex2
    · exact or_comm.trans (or_congr ex1 ex2)
  have e3 : (ry = s ∨ ry = t) ↔ (f y = f a ∨ f y = f b) := by
    rcases hst with ⟨hs, ht⟩ | ⟨hs, ht⟩ <;> rw [hs, ht]
    · exact or_congr ey1 ey2
    · exact or_comm.trans (or_congr ey1 ey2)
  rw [e1, e2, e3]

/-! ### The main loop refines the label-level selection -/

theorem labelsOf_snoc (ps : List (V × V)) (q : V × V) :
    labelsOf (ps ++ [q]) = mergeLabels (labelsOf ps) q.1 q.2 := by
  unfold labelsOf
  rw [List.foldl_append]
  rfl

omit [DecidableEq V] in
theorem pairsOf_snoc (F : List (GraphEdge V)) (e : GraphEdge V) :
    pairsOf (F ++ [e]) = pairsOf F ++ [(e.start, e.stop)] := by
  simp [pairsOf]

omit [DecidableEq V] in
theorem sumW_snoc (F : List (GraphEdge V)) (e : GraphEdge V) :
    sumW (F ++ [e]) = sumW F + e.weight := by
  simp [sumW]

theorem DsuInv.rootsExist {vs : List V} {st : DisjointSetUnion V}
    (hinv : DsuInv vs st) : ∀ v, v ∈ vs → ∃ r, RootedTo st.parent v r :=
  fun v hv => Exists.imp (fun _ hr => hr.1) (root_exists hinv hv)

/-- Running the embedded loop with accumulator `F` and running total
`sumW F` produces exactly the label-level selection `kruskalSel F l`,
its weight, and a state satisfying both invariants. -/
theorem kruskalLoop_ok {vs : List V} {st : DisjointSetUnion V}
    {F : List (GraphEdge V)} (hinv : DsuInv vs st)
    (hker : KernelInv vs st.parent (labelsOf (pairsOf F)))
    {l : List (GraphEdge V)} (hl : ∀ e, e ∈ l → e.start ∈ vs ∧ e.stop ∈ vs) :
    ∃ st', kruskalLoop (vs.length + 1) st F (sumW F) l =
        .ok (st', kruskalSel F l, sumW (kruskalSel F l)) ∧
      DsuInv vs st' ∧ KernelInv vs st'.parent (labelsOf (pairsOf (kruskalSel F l))) := by
  induction l generalizing st F with
  | nil => exact ⟨st, rfl, hinv, hker⟩
  | cons e rest ih =>
    obtain ⟨hs, ht⟩ := hl e (List.mem_cons_self e rest)
    have hl' : ∀ e', e' ∈ rest → e'.start ∈ vs ∧ e'.stop ∈ vs :=
      fun e' he' => hl e' (List.mem_cons_of_mem e he')
    obtain ⟨st1, r1, hf1, hinv1, hc1, hroot1, hrk1⟩ := findOp_total hinv hs
    obtain ⟨st2, r2, hf2, hinv2, hc2, hroot2, hrk2⟩ := findOp_total hinv1 ht
    have hroot2' : RootedTo st.parent e.stop r2 := by
      obtain ⟨rb, hrb⟩ := hinv.rootsExist e.stop ht
      have h := hroot2.unique (hc1.rooted hrb)
      rw [h]
      exact hrb
    have hcond : r1 = r2 ↔
        labelsOf (pairsOf F) e.start = labelsOf (pairsOf F) e.stop :=
      hker e.start hs e.stop ht r1 r2 hroot1 hroot2'
    by_cases heq : r1 = r2
    · have hlab : labelsOf (pairsOf F) e.start = labelsOf (pairsOf F) e.stop :=
        hcond.1 heq
      have hker2 : KernelInv vs st2.parent (labelsOf (pairsOf F)) :=
        (hker.compress hinv.rootsExist hc1).compress hinv1.rootsExist hc2
      obtain ⟨st', hloop, hinv', hker'⟩ := ih hinv2 hker2 hl'
      have hsel : kruskalSel F (e :: rest) = kruskalSel F rest := by
        simp only [kruskalSel, if_pos hlab]
      refine ⟨st', ?_, hinv', by rw [hsel]; exact hker'⟩
      rw [hsel]
      simp only [kruskalLoop, hf1, hf2, if_pos heq]
      exact hloop
    · have hlab : ¬ labelsOf (pairsOf F) e.start = labelsOf (pairsOf F) e.stop :=
        fun h => heq (hcond.2 h)
      have hra2 : RootedTo st2.parent e.start r1 := hc2.rooted (hc1.rooted hroot1)
      have hrb2 : RootedTo st2.parent e.stop r2 := hc2.rooted hroot2
      obtain ⟨st3, hu, hinv3, hcase⟩ := unionOp_total hinv2 hs ht hra2 hrb2
      rcases hcase with ⟨habs, _⟩ | ⟨_, sv, tv, hst, hmap⟩
      · exact absurd habs heq
      · have hker2 : KernelInv vs st2.parent (labelsOf (pairsOf F)) :=
          (hker.compress hinv.rootsExist hc1).compress hinv1.rootsExist hc2
        have hker3 : KernelInv vs st3.parent
            (labelsOf (pairsOf (F ++ [e]))) := by
          rw [pairsOf_snoc, labelsOf_snoc]
          exact hker2.union_update hinv2.rootsExist hs ht hra2 hrb2 hst hmap
        obtain ⟨st', hloop, hinv', hker'⟩ := ih hinv3 hker3 hl'
        have hsel : kruskalSel F (e :: rest) = kruskalSel (F ++ [e]) rest := by
          simp only [kruskalSel, if_neg hlab]
        refine ⟨st', ?_, hinv', by rw [hsel]; exact hker'⟩
        rw [hsel]
        simp only [kruskalLoop, hf1, hf2, if_neg heq, hu]
        rw [← sumW_snoc F e]
        exact hloop

/-- Inside a `Forall₂` of roots, membership of a root corresponds to
membership of an equivalent label. -/
theorem forall2_root_mem {vs : List V} {p : V → Option V} {f : V → V}
    (hker : KernelInv vs p f) {l roots : List V} (hl : ∀ v, v ∈ l → v ∈ vs)
    (h2 : List.Forall₂ (fun v r => RootedTo p v r) l roots)
    {v r : V} (hv : v ∈ vs) (hr : RootedTo p v r) :
    (r ∈ roots ↔ ∃ v', v' ∈ l ∧ f v' = f v) := by
  induction h2 with
  | nil => simp
  | cons hvr h2' ih =>
    rename_i a b l' roots'
    have hal : a ∈ vs := hl a (List.mem_cons_self a l')
    have hl'' : ∀ v', v' ∈ l' → v' ∈ vs :=
      fun v' hv' => hl v' (List.mem_cons_of_mem a hv')
    constructor
    · intro hmem
      rcases List.mem_cons.1 hmem with hrb | hrb
      · exact ⟨a, List.mem_cons_self a l',
          (hker a hal v hv b r hvr hr).1 hrb.symm⟩
      · obtain ⟨v', hv', hfv⟩ := (ih hl'').1 hrb
        exact ⟨v', List.mem_cons_of_mem a hv', hfv⟩
    · rintro ⟨v', hv', hfv⟩
      rcases List.mem_cons.1 hv' with hva | hva
      · have : b = r := (hker a hal v hv b r hvr hr).2 (by rw [← hva]; exact hfv)
        rw [← this]
        exact List.mem_cons_self b roots'
      · exact List.mem_cons_of_mem b ((ih hl'').2 ⟨v', hva, hfv⟩)

/-- The number of distinct roots equals the number of distinct labels. -/
theorem roots_dedup_eq {vs : List V} {p : V → Option V} {f : V → V}
    (hker : KernelInv vs p f) {l roots : List V} (hl : ∀ v, v ∈ l → v ∈ vs)
    (h2 : List.Forall₂ (fun v r => RootedTo p v r) l roots) :
    roots.dedup.length = (l.map f).dedup.length := by
  induction h2 with
  | nil => simp
  | cons hvr h2' ih =>
    rename_i a b l' roots'
    have hal : a ∈ vs := hl a (List.mem_cons_self a l')
    have hl'' : ∀ v', v' ∈ l' → v' ∈ vs :=
      fun v' hv' => hl v' (List.mem_cons_of_mem a hv')
    have hmem : b ∈ roots' ↔ f a ∈ l'.map f := by
      rw [forall2_root_mem hker hl'' h2' hal hvr]
      simp [List.mem_map]
    rw [List.map_cons]
    by_cases hb : b ∈ roots'
    · rw [List.dedup_cons_of_mem hb, List.dedup_cons_of_mem (hmem.1 hb)]
      exact ih hl''
    · rw [List.dedup_cons_of_not_mem hb,
        List.dedup_cons_of_not_mem (fun h => hb (hmem.2 h))]
      simp only [List.length_cons]
      rw [ih hl'']

/-- Membership-aware congruence for `Forall₂`. -/
theorem forall2_imp_mem {α β : Type} {R S : α → β → Prop} {l : List α}
    {m : List β} (h2 : List.Forall₂ R l m)
    (himp : ∀ x, x ∈ l → ∀ y, R x y → S x y) : List.Forall₂ S l m := by
  induction h2 with
  | nil => exact .nil
  | cons h h2' ih =>
    rename_i a b l' m'
    exact .cons (himp a (List.mem_cons_self a l') b h)
      (ih (fun x hx y hy => himp x (List.mem_cons_of_mem a hx) y hy))

/-- The roots loop succeeds on known vertices and returns the roots of the
initial state, pointwise. -/
theorem rootsLoop_total {vs : List V} {st : DisjointSetUnion V}
    (hinv : DsuInv vs st) {l : List V} (hl : ∀ v, v ∈ l → v ∈ vs) :
    ∃ st' roots, rootsLoop (vs.length + 1) st l = .ok (st', roots) ∧
      List.Forall₂ (fun v r => RootedTo st.parent v r) l roots := by
  induction l generalizing st with
  | nil => exact ⟨st, [], rfl, List.Forall₂.nil⟩
  | cons v tl ih =>
    have hv : v ∈ vs := hl v (List.mem_cons_self v tl)
    have hl' : ∀ v', v' ∈ tl → v' ∈ vs :=
      fun v' hv' => hl v' (List.mem_cons_of_mem v hv')
    obtain ⟨st1, r, hf, hinv1, hc, hroot, _⟩ := findOp_total hinv hv
    obtain ⟨st', roots, hloop, h2⟩ := ih hinv1 hl'
    refine ⟨st', r :: roots, ?_, List.Forall₂.cons hroot ?_⟩
    · simp only [rootsLoop, hf, hloop]
    · refine forall2_imp_mem h2 ?_
      intro v' hv' r' hr'
      obtain ⟨r0, hr0⟩ := hinv.rootsExist v' (hl' v' hv')
      have heq : r' = r0 := hr'.unique (hc.rooted hr0)
      rw [heq]
      exact hr0

/-! ### Characterization of a full run of `kruskal_mst` -/

theorem kruskal_mst_empty {vs : List V} {edges : List (GraphEdge V)}
    (h : vs = [] ∨ edges = []) :
    kruskal_mst vs edges = .ok ⟨[], 0, .insufficientInput⟩ := by
  unfold kruskal_mst
  rcases h with h | h <;> rw [h] <;> simp

/-- On nonempty input whose edges mention only known vertices, the run
succeeds and returns exactly the label-level selection over the sorted
edges, its weight, and the status determined by the number of distinct
final roots, which equals the number of label classes of the forest. -/
theorem kruskal_mst_run {vs : List V} {edges : List (GraphEdge V)}
    (hvne : vs ≠ []) (hene : edges ≠ [])
    (hl : ∀ e, e ∈ edges → e.start ∈ vs ∧ e.stop ∈ vs) :
    ∃ c, kruskal_mst vs edges =
        .ok ⟨kruskalSel [] (sortEdges edges),
             sumW (kruskalSel [] (sortEdges edges)),
             if c > 1 then .disconnected c else .spanning⟩ ∧
      c = labelClasses (kruskalSel [] (sortEdges edges)) vs := by
  have hl' : ∀ e, e ∈ sortEdges edges → e.start ∈ vs ∧ e.stop ∈ vs :=
    fun e he => hl e ((List.perm_insertionSort _ edges).subset he)
  have hker0 : KernelInv vs (dsuInit vs).parent (labelsOf (pairsOf [])) :=
    dsuInit_kernel vs
  obtain ⟨st', hloop, hinv', hker'⟩ :=
    kruskalLoop_ok (dsuInit_inv vs) hker0 hl'
  obtain ⟨st2, roots, hroots, h2⟩ := rootsLoop_total hinv' (fun v hv => hv)
  have hcount : roots.dedup.length =
      labelClasses (kruskalSel [] (sortEdges edges)) vs :=
    roots_dedup_eq hker' (fun v hv => hv) h2
  refine ⟨roots.dedup.length, ?_, hcount⟩
  unfold kruskal_mst
  have he1 : vs.isEmpty = false := by
    cases vs with
    | nil => exact absurd rfl hvne
    | cons a l => rfl
  have he2 : edges.isEmpty = false := by
    cases edges with
    | nil => exact absurd rfl hene
    | cons a l => rfl
  rw [he1, he2]
  simp only [Bool.or_self, Bool.false_eq_true, if_false]
  have h0 : (0 : Int) = sumW ([] : List (GraphEdge V)) := rfl
  rw [h0]
  simp only [hloop, hroots]
  by_cases hc : roots.dedup.length > 1
  · rw [if_pos hc, if_pos hc]
  · rw [if_neg hc, if_neg hc]

/-! ### Small consequences used by the claim theorems -/

theorem labelClasses_pos {E : List (GraphEdge V)} {vs : List V} (h : vs ≠ []) :
    1 ≤ labelClasses E vs := by
  unfold labelClasses
  cases vs with
  | nil => exact absurd rfl h
  | cons v tl =>
    have : (v :: tl).map (labelsOf (pairsOf E)) ≠ [] := by simp
    have hd : ((v :: tl).map (labelsOf (pairsOf E))).dedup ≠ [] := by
      intro hnil
      exact this ((List.dedup_eq_nil _).1 hnil)
    exact List.length_pos.2 hd

/-! ### Claim theorems: totality, statuses, and the worked example -/

/-- C10: with every edge endpoint a member of the vertex list, every
dictionary lookup performed by `find` and `union` hits an existing key
(and the fuel never runs out), so `kruskal_mst` returns a result rather
than an error. -/
theorem C10_kruskal_mst_total (vs : List V) (edges : List (GraphEdge V))
    (hl : ∀ e, e ∈ edges → e.start ∈ vs ∧ e.stop ∈ vs) :
    ∃ res, kruskal_mst vs edges = .ok res := by
  by_cases hv : vs = []
  · exact ⟨_, kruskal_mst_empty (Or.inl hv)⟩
  by_cases he : edges = []
  · exact ⟨_, kruskal_mst_empty (Or.inr he)⟩
  obtain ⟨c, hrun, _⟩ := kruskal_mst_run hv he hl
  exact ⟨_, hrun⟩

/-- Witness for C10 at a concrete input. -/
theorem C10_witness :
    ∃ res, kruskal_mst [0, 1] [⟨5, 0, 1⟩] = .ok res :=
  C10_kruskal_mst_total [0, 1] [⟨5, 0, 1⟩] (by decide)

/-- C5: with an empty vertex list or an empty edge list, `kruskal_mst`
returns an empty forest, zero weight, and the insufficient-input status,
as an ordinary result rather than an error. -/
theorem C5_empty_input_reported (vs : List V) (edges : List (GraphEdge V))
    (h : vs = [] ∨ edges = []) :
    kruskal_mst vs edges = .ok ⟨[], 0, .insufficientInput⟩ :=
  kruskal_mst_empty h

/-- Witness for C5 at the concrete input of the spec. -/
theorem C5_witness :
    (([] : List Nat) = [] ∨ ([] : List (GraphEdge Nat)) = []) ∧
      kruskal_mst ([] : List Nat) [] = .ok ⟨[], 0, .insufficientInput⟩ :=
  ⟨Or.inl rfl, C5_empty_input_reported [] [] (Or.inl rfl)⟩

/-- C4: on any nonempty well-formed input, the returned status is
`spanning` exactly when one component remains and `disconnected c` exactly
when `c > 1` components remain; and on vertices 0,1,2 with the single edge
(1,0,1) the result is that edge, weight 1, and status `disconnected 2`. -/
theorem C4_status_reports :
    (∀ (V : Type) [DecidableEq V] (vs : List V) (edges : List (GraphEdge V))
      (res : KResult V), vs ≠ [] → edges ≠ [] →
      (∀ e, e ∈ edges → e.start ∈ vs ∧ e.stop ∈ vs) →
      kruskal_mst vs edges = .ok res →
      ((res.status = .spanning ↔ labelClasses res.forest vs = 1) ∧
       (∀ c, res.status = .disconnected c ↔
          (c = labelClasses res.forest vs ∧ 1 < c)))) ∧
    kruskal_mst [0, 1, 2] [⟨1, 0, 1⟩] =
      .ok ⟨[⟨1, 0, 1⟩], 1, .disconnected 2⟩ := by
  constructor
  · intro V _ vs edges res hvne hene hl hres
    obtain ⟨c, hrun, hc⟩ := kruskal_mst_run hvne hene hl
    rw [hres] at hrun
    have hres' := Except.ok.inj hrun
    have hforest : res.forest = kruskalSel [] (sortEdges edges) := by
      rw [hres']
    have hstatus : res.status = if c > 1 then .disconnected c else .spanning := by
      rw [hres']
    have hc' : c = labelClasses res.forest vs := by
      rw [hforest]
      exact hc
    constructor
    · rw [hstatus, ← hc']
      by_cases h1 : c > 1
      · rw [if_pos h1]
        constructor
        · intro h; cases h
        · intro h
          rw [h] at h1
          exact absurd h1 (lt_irrefl 1)
      · rw [if_neg h1]
        have hge : 1 ≤ c := by
          rw [hc']
          exact labelClasses_pos hvne
        have : c = 1 := Nat.le_antisymm (Nat.le_of_not_lt h1) hge
        simp [this]
    · intro c'
      rw [hstatus, ← hc']
      by_cases h1 : c > 1
      · rw [if_pos h1]
        constructor
        · intro h
          have hcc := KStatus.disconnected.inj h
          exact ⟨hcc.symm, hcc ▸ h1⟩
        · rintro ⟨h, _⟩
          rw [h]
      · rw [if_neg h1]
        constructor
        · intro h; cases h
        · rintro ⟨h, hlt⟩
          rw [← h] at h1
          exact absurd hlt h1
  · rfl

/-- Witness for the universally quantified part of C4 at the spec's
concrete disconnected input. -/
theorem C4_witness :
    ((⟨[⟨1, 0, 1⟩], 1, .disconnected 2⟩ : KResult Nat).status = .spanning ↔
      labelClasses [⟨1, 0, 1⟩] [0, 1, 2] = 1) ∧
    (∀ c, (⟨[⟨1, 0, 1⟩], 1, .disconnected 2⟩ : KResult Nat).status =
        .disconnected c ↔ (c = labelClasses [⟨1, 0, 1⟩] [0, 1, 2] ∧ 1 < c)) :=
  C4_status_reports.1 Nat [0, 1, 2] [⟨1, 0, 1⟩] ⟨[⟨1, 0, 1⟩], 1, .disconnected 2⟩
    (by decide) (by decide) (by decide) C4_status_reports.2

set_option maxRecDepth 10000 in
/-- C3: on the demonstration input (9 vertices a-i, the 14 listed edges)
the run returns exactly 8 accepted edges of total weight 37 with status
`spanning`. -/
theorem C3_worked_example :
    kruskal_mst exVertices exEdges =
      .ok ⟨[⟨1, .g, .h⟩, ⟨2, .c, .i⟩, ⟨2, .f, .g⟩, ⟨4, .a, .b⟩, ⟨4, .c, .f⟩,
            ⟨7, .c, .d⟩, ⟨8, .a, .h⟩, ⟨9, .d, .e⟩], 37, .spanning⟩ ∧
    ([⟨1, .g, .h⟩, ⟨2, .c, .i⟩, ⟨2, .f, .g⟩, ⟨4, .a, .b⟩, ⟨4, .c, .f⟩,
      ⟨7, .c, .d⟩, ⟨8, .a, .h⟩, ⟨9, .d, .e⟩] : List (GraphEdge Vx)).length = 8 ∧
    exVertices.length = 9 :=
  ⟨by rfl, by rfl, by rfl⟩

/-! ### Claim theorems: constructor and unknown-vertex behavior -/

/-- C8 counterexample: constructing from the empty vertex set does not fail;
it returns an ordinary structure whose two maps are everywhere empty (the
dictionary comprehensions of lines 29-30 simply build empty dictionaries,
with no `InvalidInputError` check anywhere in `__init__`). -/
theorem C8_counterexample :
    dsuInit ([] : List Nat) =
      (⟨fun _ => none, fun _ => none⟩ : DisjointSetUnion Nat) := by
  unfold dsuInit
  congr 1

/-- C8 amended: construction always succeeds; each listed vertex is its own
parent with rank 0, and unlisted vertices (in particular all of them when
the vertex set is empty) are absent from both maps. -/
theorem C8_init_maps (vs : List V) (v : V) :
    (v ∈ vs → (dsuInit vs).parent v = some v ∧ (dsuInit vs).rank v = some 0) ∧
    (v ∉ vs → (dsuInit vs).parent v = none ∧ (dsuInit vs).rank v = none) := by
  constructor
  · intro hv
    constructor <;> simp [dsuInit, hv]
  · intro hv
    constructor <;> simp [dsuInit, hv]

/-- Witness for C8 at a concrete vertex set. -/
theorem C8_witness :
    ((0 : Nat) ∈ [0, 1] →
      (dsuInit [0, 1]).parent 0 = some 0 ∧ (dsuInit [0, 1]).rank 0 = some 0) ∧
    ((0 : Nat) ∉ [0, 1] →
      (dsuInit [0, 1]).parent 0 = none ∧ (dsuInit [0, 1]).rank 0 = none) :=
  C8_init_maps [0, 1] 0

/-- C7 counterexample: a failed `union` call can change the parent map.
Starting from vertices 0-3, after union(0,1), union(2,3), union(1,3) the
parent of 3 is 2; the failed call union(3,4) (4 is unknown) raises a
`KeyError` only after its first `find` has already re-pointed 3 to the
root 0 by path compression, so the parent map observed after the failure
differs at 3. -/
theorem C7_counterexample :
    ((unionOp 5 (unionOp 5 (unionOp 5 (unionOp 5 (dsuInit [0, 1, 2, 3])
        0 1).1 2 3).1 1 3).1 3 4).2 = some .unknownVertex) ∧
    ((unionOp 5 (unionOp 5 (unionOp 5 (dsuInit [0, 1, 2, 3])
        0 1).1 2 3).1 1 3).1.parent 3 = some 2) ∧
    ((unionOp 5 (unionOp 5 (unionOp 5 (unionOp 5 (dsuInit [0, 1, 2, 3])
        0 1).1 2 3).1 1 3).1 3 4).1.parent 3 = some 0) := by
  refine ⟨?_, ?_, ?_⟩ <;> rfl

/-- C7 amended: `find` on an unknown vertex fails with the state unchanged;
`union` involving an unknown vertex fails, never inserts the vertex, never
changes the rank map, and changes the parent map at most by path
compression (re-pointing already-known vertices to their own roots). -/
theorem C7_unknown_vertex (st : DisjointSetUnion V) (v1 v2 : V) (fuel : Nat)
    (hfuel : 0 < fuel) :
    (st.parent v2 = none →
      findOp fuel st v2 = (st, .error .unknownVertex) ∧
      unionOp fuel st v2 v1 = (st, some .unknownVertex) ∧
      ∃ e, (unionOp fuel st v1 v2).2 = some e ∧
        (unionOp fuel st v1 v2).1.rank = st.rank ∧
        Compresses st.parent (unionOp fuel st v1 v2).1.parent ∧
        ∀ x, (unionOp fuel st v1 v2).1.parent x = none ↔ st.parent x = none) := by
  intro hv2
  have hfind : findA fuel st.parent v2 = .error .unknownVertex := by
    cases fuel with
    | zero => cases hfuel
    | succ k => simp only [findA, hv2]
  have hfop : findOp fuel st v2 = (st, .error .unknownVertex) := by
    unfold findOp
    rw [hfind]
  refine ⟨hfop, ?_, ?_⟩
  · unfold unionOp
    rw [hfop]
  · cases hf1 : findOp fuel st v1 with
    | mk st1 r1e =>
      cases r1e with
      | error e =>
        have hst1 : st1 = st := by
          unfold findOp at hf1
          cases hfa : findA fuel st.parent v1 with
          | error e' => rw [hfa] at hf1; cases hf1; rfl
          | ok q => rw [hfa] at hf1; cases hf1
        refine ⟨e, ?_, ?_, ?_, ?_⟩
        · simp only [unionOp, hf1, hst1]
        · simp only [unionOp, hf1, hst1]
        · simp only [unionOp, hf1, hst1]
          exact fun x => Or.inl rfl
        · simp only [unionOp, hf1, hst1]
          exact fun x => trivial
      | ok r1 =>
        obtain ⟨hfa, hrk⟩ : findA fuel st.parent v1 = .ok (st1.parent, r1) ∧
            st1.rank = st.rank := by
          unfold findOp at hf1
          cases hfa : findA fuel st.parent v1 with
          | error e' => rw [hfa] at hf1; cases hf1
          | ok q =>
            obtain ⟨p', r'⟩ := q
            rw [hfa] at hf1
            cases hf1
            exact ⟨rfl, rfl⟩
        have hc1 : Compresses st.parent st1.parent := findA_ok_compress hfa
        have hv2' : st1.parent v2 = none := (hc1.none_iff v2).2 hv2
        have hfind2 : findA fuel st1.parent v2 = .error .unknownVertex := by
          cases fuel with
          | zero => cases hfuel
          | succ k => simp only [findA, hv2']
        have hfop2 : findOp fuel st1 v2 = (st1, .error .unknownVertex) := by
          unfold findOp
          rw [hfind2]
        refine ⟨.unknownVertex, ?_, ?_, ?_, ?_⟩
        · simp only [unionOp, hf1, hfop2]
        · simp only [unionOp, hf1, hfop2]
          exact hrk
        · simp only [unionOp, hf1, hfop2]
          exact hc1
        · simp only [unionOp, hf1, hfop2]
          exact fun x => hc1.none_iff x

/-- Witness for C7 at a concrete structure and unknown vertex. -/
theorem C7_witness :
    findOp 3 (dsuInit [0]) (1 : Nat) = (dsuInit [0], .error .unknownVertex) ∧
    unionOp 3 (dsuInit [0]) (1 : Nat) (0 : Nat) =
      (dsuInit [0], some .unknownVertex) ∧
    ∃ e, (unionOp 3 (dsuInit [0]) (0 : Nat) (1 : Nat)).2 = some e ∧
      (unionOp 3 (dsuInit [0]) (0 : Nat) (1 : Nat)).1.rank = (dsuInit [0]).rank ∧
      Compresses (dsuInit [0]).parent
        (unionOp 3 (dsuInit [0]) (0 : Nat) (1 : Nat)).1.parent ∧
      ∀ x, (unionOp 3 (dsuInit [0]) (0 : Nat) (1 : Nat)).1.parent x = none ↔
        (dsuInit [0]).parent x = none :=
  C7_unknown_vertex (dsuInit [0]) 0 1 3 (by decide) (by decide)

/-! ### Invariant preservation along arbitrary call sequences -/

theorem findOp_ok_char {fuel : Nat} {st st' : DisjointSetUnion V} {v r : V}
    (h : findOp fuel st v = (st', .ok r)) :
    RootedTo st.parent v r ∧ Compresses st.parent st'.parent ∧
      st'.rank = st.rank := by
  unfold findOp at h
  cases hfa : findA fuel st.parent v with
  | error e => rw [hfa] at h; cases h
  | ok q =>
    obtain ⟨p', r'⟩ := q
    rw [hfa] at h
    cases h
    exact ⟨findA_ok_root hfa, findA_ok_compress hfa, rfl⟩

theorem findOp_error_state {fuel : Nat} {st st' : DisjointSetUnion V} {v : V}
    {e : DsuErr} (h : findOp fuel st v = (st', .error e)) : st' = st := by
  unfold findOp at h
  cases hfa : findA fuel st.parent v with
  | error e' => rw [hfa] at h; cases h; rfl
  | ok q =>
    obtain ⟨p', r'⟩ := q
    rw [hfa] at h
    cases h

theorem findOp_rank (fuel : Nat) (st : DisjointSetUnion V) (v : V) :
    (findOp fuel st v).1.rank = st.rank := by
  unfold findOp
  cases hfa : findA fuel st.parent v with
  | error e => rfl
  | ok q =>
    obtain ⟨p', r'⟩ := q
    rfl

theorem DsuInv.findOp_any {vs : List V} {st : DisjointSetUnion V}
    (hinv : DsuInv vs st) (fuel : Nat) (v : V) :
    DsuInv vs (findOp fuel st v).1 := by
  unfold findOp
  cases hfa : findA fuel st.parent v with
  | error e => exact hinv
  | ok q =>
    obtain ⟨p', r'⟩ := q
    exact hinv.find hfa

theorem DsuInv.unionOp_any {vs : List V} {st : DisjointSetUnion V}
    (hinv : DsuInv vs st) (fuel : Nat) (a b : V) :
    DsuInv vs (unionOp fuel st a b).1 := by
  rcases hf1 : findOp fuel st a with ⟨st1, r1e⟩
  have hinv1 : DsuInv vs st1 := by
    have h := hinv.findOp_any fuel a
    rw [hf1] at h
    exact h
  cases r1e with
  | error e =>
    simp only [unionOp, hf1]
    exact hinv1
  | ok r1 =>
    rcases hf2 : findOp fuel st1 b with ⟨st2, r2e⟩
    have hinv2 : DsuInv vs st2 := by
      have h := hinv1.findOp_any fuel b
      rw [hf2] at h
      exact h
    cases r2e with
    | error e =>
      simp only [unionOp, hf1, hf2]
      exact hinv2
    | ok r2 =>
      obtain ⟨hra, hc1, _⟩ := findOp_ok_char hf1
      obtain ⟨hrb, hc2, _⟩ := findOp_ok_char hf2
      have hpa2 : st2.parent r1 = some r1 :=
        (hc2.rooted (hc1.rooted hra)).isRoot
      have hpb2 : st2.parent r2 = some r2 := (hc2.rooted hrb).isRoot
      by_cases hab : r1 = r2
      · simp only [unionOp, hf1, hf2, if_pos hab]
        exact hinv2
      · cases hk1 : st2.rank r1 with
        | none =>
          simp only [unionOp, hf1, hf2, if_neg hab, hk1]
          exact hinv2
        | some k1 =>
          cases hk2 : st2.rank r2 with
          | none =>
            simp only [unionOp, hf1, hf2, if_neg hab, hk1, hk2]
            exact hinv2
          | some k2 =>
            by_cases hgt : k1 > k2
            · simp only [unionOp, hf1, hf2, if_neg hab, hk1, hk2, if_pos hgt]
              exact hinv2.attach hpb2 ⟨k2, k1, hk2, hk1, hgt⟩ fun x => rfl
            · by_cases hlt : k1 < k2
              · simp only [unionOp, hf1, hf2, if_neg hab, hk1, hk2, if_neg hgt,
                  if_pos hlt]
                exact hinv2.attach hpa2 ⟨k1, k2, hk1, hk2, hlt⟩ fun x => rfl
              · have hkeq : k2 = k1 :=
                  Nat.le_antisymm (Nat.le_of_not_lt hlt) (Nat.le_of_not_lt hgt)
                simp only [unionOp, hf1, hf2, if_neg hab, hk1, hk2, if_neg hgt,
                  if_neg hlt]
                rw [hkeq] at hk2
                exact hinv2.attachBump hpa2 hpb2 hab hk1 hk2
                  (fun x => rfl) (fun x => rfl)

theorem unionOp_rank_mono (fuel : Nat) (st : DisjointSetUnion V) (a b x : V)
    (k : Nat) (hx : st.rank x = some k) :
    ∃ k', (unionOp fuel st a b).1.rank x = some k' ∧ k ≤ k' := by
  rcases hf1 : findOp fuel st a with ⟨st1, r1e⟩
  have hrk1 : st1.rank = st.rank := by
    have h := findOp_rank fuel st a
    rw [hf1] at h
    exact h
  cases r1e with
  | error e =>
    simp only [unionOp, hf1]
    exact ⟨k, by rw [hrk1]; exact hx, le_refl k⟩
  | ok r1 =>
    rcases hf2 : findOp fuel st1 b with ⟨st2, r2e⟩
    have hrk2 : st2.rank = st.rank := by
      have h := findOp_rank fuel st1 b
      rw [hf2] at h
      rw [h]
      exact hrk1
    cases r2e with
    | error e =>
      simp only [unionOp, hf1, hf2]
      exact ⟨k, by rw [hrk2]; exact hx, le_refl k⟩
    | ok r2 =>
      by_cases hab : r1 = r2
      · simp only [unionOp, hf1, hf2, if_pos hab]
        exact ⟨k, by rw [hrk2]; exact hx, le_refl k⟩
      · cases hk1 : st2.rank r1 with
        | none =>
          simp only [unionOp, hf1, hf2, if_neg hab, hk1]
          exact ⟨k, by rw [hrk2]; exact hx, le_refl k⟩
        | some k1 =>
          cases hk2 : st2.rank r2 with
          | none =>
            simp only [unionOp, hf1, hf2, if_neg hab, hk1, hk2]
            exact ⟨k, by rw [hrk2]; exact hx, le_refl k⟩
          | some k2 =>
            by_cases hgt : k1 > k2
            · simp only [unionOp, hf1, hf2, if_neg hab, hk1, hk2, if_pos hgt]
              exact ⟨k, by rw [hrk2]; exact hx, le_refl k⟩
            · by_cases hlt : k1 < k2
              · simp only [unionOp, hf1, hf2, if_neg hab, hk1, hk2, if_neg hgt,
                  if_pos hlt]
                exact ⟨k, by rw [hrk2]; exact hx, le_refl k⟩
              · simp only [unionOp, hf1, hf2, if_neg hab, hk1, hk2, if_neg hgt,
                  if_neg hlt]
                by_cases hxr : x = r1
                · refine ⟨k1 + 1, ?_, ?_⟩
                  · simp [hxr]
                  · rw [hxr] at hx
                    rw [hrk2] at hk1
                    rw [hx] at hk1
                    rw [Option.some.inj hk1]
                    exact Nat.le_succ k1
                · refine ⟨k, ?_, le_refl k⟩
                  simp only [if_neg hxr]
                  rw [hrk2]
                  exact hx

theorem reachable_inv {vs : List V} {st : DisjointSetUnion V}
    (h : Reachable vs st) : DsuInv vs st := by
  induction h with
  | init => exact dsuInit_inv vs
  | findStep fuel _ _ ih => exact ih.findOp_any fuel _
  | unionStep fuel _ _ _ ih => exact ih.unionOp_any fuel _ _

/-- C9: in every structure reachable from construction by `find` and
`union` calls on known vertices, following parent links from any listed
vertex terminates at a root that is its own parent (the parent map is a
forest, so `find` terminates), and no operation ever decreases the rank of
any vertex. -/
theorem C9_forest_invariant {vs : List V} {st : DisjointSetUnion V}
    (h : Reachable vs st) :
    (∀ v, v ∈ vs → ∃ r, RootedTo st.parent v r ∧ st.parent r = some r) ∧
    (∀ fuel v, (findOp fuel st v).1.rank = st.rank) ∧
    (∀ fuel a b x k, st.rank x = some k →
      ∃ k', (unionOp fuel st a b).1.rank x = some k' ∧ k ≤ k') := by
  have hinv : DsuInv vs st := reachable_inv h
  refine ⟨fun v hv => ?_, fun fuel v => findOp_rank fuel st v,
    fun fuel a b x k hx => unionOp_rank_mono fuel st a b x k hx⟩
  obtain ⟨r, hr, _⟩ := root_exists hinv hv
  exact ⟨r, hr, hr.isRoot⟩

/-- Witness for C9 on a freshly constructed structure. -/
theorem C9_witness :
    (∀ v, v ∈ [0, 1] → ∃ r, RootedTo (dsuInit [0, 1] : DisjointSetUnion Nat).parent v r ∧
      (dsuInit [0, 1] : DisjointSetUnion Nat).parent r = some r) ∧
    (∀ fuel v, (findOp fuel (dsuInit [0, 1] : DisjointSetUnion Nat) v).1.rank =
      (dsuInit [0, 1] : DisjointSetUnion Nat).rank) ∧
    (∀ fuel a b x k, (dsuInit [0, 1] : DisjointSetUnion Nat).rank x = some k →
      ∃ k', (unionOp fuel (dsuInit [0, 1] : DisjointSetUnion Nat) a b).1.rank x = some k' ∧
        k ≤ k') :=
  C9_forest_invariant Reachable.init

/-! ### The selected forest is acyclic: replay through a fresh structure -/

theorem kruskalSel_sublist : ∀ (l F : List (GraphEdge V)),
    (kruskalSel F l).Sublist (F ++ l) := by
  intro l
  induction l with
  | nil =>
    intro F
    rw [List.append_nil]
    exact List.Sublist.refl F
  | cons e rest ih =>
    intro F
    by_cases h : labelsOf (pairsOf F) e.start = labelsOf (pairsOf F) e.stop
    · rw [kruskalSel, if_pos h]
      exact (ih F).trans ((List.append_sublist_append_left F).2
        (List.sublist_cons_self e rest))
    · rw [kruskalSel, if_neg h]
      have := ih (F ++ [e])
      rw [List.append_assoc] at this
      exact this

theorem kruskalSel_decomp : ∀ (l F : List (GraphEdge V)),
    ∃ D, kruskalSel F l = F ++ D ∧
      ∀ P e S, D = P ++ e :: S →
        labelsOf (pairsOf (F ++ P)) e.start ≠
          labelsOf (pairsOf (F ++ P)) e.stop := by
  intro l
  induction l with
  | nil =>
    intro F
    refine ⟨[], by rw [kruskalSel, List.append_nil], ?_⟩
    intro P e S h
    exact absurd h (by simp)
  | cons e rest ih =>
    intro F
    by_cases h : labelsOf (pairsOf F) e.start = labelsOf (pairsOf F) e.stop
    · obtain ⟨D, hD, hind⟩ := ih F
      exact ⟨D, by rw [kruskalSel, if_pos h]; exact hD, hind⟩
    · obtain ⟨D', hD', hind'⟩ := ih (F ++ [e])
      refine ⟨e :: D', ?_, ?_⟩
      · rw [kruskalSel, if_neg h, hD', List.append_assoc]
        rfl
      · intro P e' S hsplit
        cases P with
        | nil =>
          simp only [List.nil_append] at hsplit
          have he' : e' = e := (List.cons.inj hsplit).1.symm
          rw [List.append_nil, he']
          exact h
        | cons q P' =>
          simp only [List.cons_append] at hsplit
          obtain ⟨hq, hD''⟩ := List.cons.inj hsplit
          have hgoal := hind' P' e' S hD''
          rw [List.append_assoc] at hgoal
          simp only [List.singleton_append] at hgoal
          rw [← hq]
          exact hgoal

/-- Replaying an edge list that is independent relative to `F` through a
state whose partition is that of `F` succeeds, and every union merges two
distinct roots. -/
theorem replayOk_of_indep {vs : List V} {st : DisjointSetUnion V}
    {F l : List (GraphEdge V)} (hinv : DsuInv vs st)
    (hker : KernelInv vs st.parent (labelsOf (pairsOf F)))
    (hl : ∀ e, e ∈ l → e.start ∈ vs ∧ e.stop ∈ vs)
    (hind : ∀ P e S, l = P ++ e :: S →
      labelsOf (pairsOf (F ++ P)) e.start ≠
        labelsOf (pairsOf (F ++ P)) e.stop) :
    replayOk (vs.length + 1) st l := by
  induction l generalizing st F with
  | nil => exact trivial
  | cons e rest ih =>
    obtain ⟨hs, ht⟩ := hl e (List.mem_cons_self e rest)
    have hl' : ∀ e', e' ∈ rest → e'.start ∈ vs ∧ e'.stop ∈ vs :=
      fun e' he' => hl e' (List.mem_cons_of_mem e he')
    obtain ⟨st1, r1, hf1, hinv1, hc1, hroot1, _⟩ := findOp_total hinv hs
    obtain ⟨st2, r2, hf2, hinv2, hc2, hroot2, _⟩ := findOp_total hinv1 ht
    have hroot2' : RootedTo st.parent e.stop r2 := by
      obtain ⟨rb, hrb⟩ := hinv.rootsExist e.stop ht
      have h := hroot2.unique (hc1.rooted hrb)
      rw [h]
      exact hrb
    have hlab : labelsOf (pairsOf F) e.start ≠ labelsOf (pairsOf F) e.stop := by
      have h := hind [] e rest rfl
      rwa [List.append_nil] at h
    have hne : r1 ≠ r2 :=
      fun h => hlab ((hker e.start hs e.stop ht r1 r2 hroot1 hroot2').1 h)
    have hra2 : RootedTo st2.parent e.start r1 := hc2.rooted (hc1.rooted hroot1)
    have hrb2 : RootedTo st2.parent e.stop r2 := hc2.rooted hroot2
    obtain ⟨st3, hu, hinv3, hcase⟩ := unionOp_total hinv2 hs ht hra2 hrb2
    rcases hcase with ⟨habs, _⟩ | ⟨_, sv, tv, hst, hmap⟩
    · exact absurd habs hne
    · have hker3 : KernelInv vs st3.parent (labelsOf (pairsOf (F ++ [e]))) := by
        rw [pairsOf_snoc, labelsOf_snoc]
        exact ((hker.compress hinv.rootsExist hc1).compress
          hinv1.rootsExist hc2).union_update
          hinv2.rootsExist hs ht hra2 hrb2 hst hmap
      have hind' : ∀ P e' S, rest = P ++ e' :: S →
          labelsOf (pairsOf ((F ++ [e]) ++ P)) e'.start ≠
            labelsOf (pairsOf ((F ++ [e]) ++ P)) e'.stop := by
        intro P e' S hsplit
        have h := hind (e :: P) e' S (by rw [hsplit]; rfl)
        rw [List.append_assoc]
        exact h
      have hrep := ih hinv3 hker3 hl' hind'
      simp only [replayOk, hf1, hf2, hu]
      exact ⟨hne, hrep⟩

/-- C2: replaying the returned forest in order through a fresh structure,
every edge finds two distinct roots at its turn (so every union strictly
merges two components and the forest is acyclic). -/
theorem C2_forest_acyclic (vs : List V) (edges : List (GraphEdge V))
    (hl : ∀ e, e ∈ edges → e.start ∈ vs ∧ e.stop ∈ vs)
    {res : KResult V} (hres : kruskal_mst vs edges = .ok res) :
    replayOk (vs.length + 1) (dsuInit vs) res.forest := by
  by_cases hv : vs = []
  · rw [kruskal_mst_empty (Or.inl hv)] at hres
    rw [← Except.ok.inj hres]
    exact trivial
  by_cases he : edges = []
  · rw [kruskal_mst_empty (Or.inr he)] at hres
    rw [← Except.ok.inj hres]
    exact trivial
  obtain ⟨c, hrun, _⟩ := kruskal_mst_run hv he hl
  rw [hres] at hrun
  have hres' := Except.ok.inj hrun
  have hforest : res.forest = kruskalSel [] (sortEdges edges) := by rw [hres']
  obtain ⟨D, hD, hindep⟩ := kruskalSel_decomp (sortEdges edges) []
  rw [List.nil_append] at hD
  have hmem : ∀ e, e ∈ res.forest → e.start ∈ vs ∧ e.stop ∈ vs := by
    intro e hme
    rw [hforest] at hme
    have h1 : e ∈ sortEdges edges := by
      have hsub := kruskalSel_sublist (sortEdges edges) []
      rw [List.nil_append] at hsub
      exact hsub.mem hme
    exact hl e ((List.perm_insertionSort _ edges).subset h1)
  have hker0 : KernelInv vs (dsuInit vs).parent
      (labelsOf (pairsOf ([] : List (GraphEdge V)))) := dsuInit_kernel vs
  refine replayOk_of_indep (F := []) (dsuInit_inv vs) hker0 hmem ?_
  intro P e S hsplit
  have h := hindep P e S (by rw [← hD, ← hforest]; exact hsplit)
  rw [List.nil_append] at h
  rw [List.nil_append]
  exact h

/-- Witness for C2 at a concrete input. -/
theorem C2_witness :
    replayOk 3 (dsuInit [0, 1]) ([⟨1, 0, 1⟩] : List (GraphEdge Nat)) :=
  @C2_forest_acyclic Nat _ [0, 1] [⟨1, 0, 1⟩] (by decide)
    ⟨[⟨1, 0, 1⟩], 1, .spanning⟩ (by rfl)

/-! ### Stability of the sort and the shape of rejections -/

omit [DecidableEq V] in
theorem sortEdges_sorted (edges : List (GraphEdge V)) :
    List.Pairwise (fun a b : GraphEdge V => a.weight ≤ b.weight)
      (sortEdges edges) :=
  @List.sorted_insertionSort (GraphEdge V)
    (fun a b => a.weight ≤ b.weight) _
    ⟨fun a b => Int.le_total a.weight b.weight⟩
    ⟨fun _ _ _ hab hbc => le_trans hab hbc⟩ edges

omit [DecidableEq V] in
theorem filter_orderedInsert (w : Int) (x : GraphEdge V) :
    ∀ m, (List.orderedInsert (fun a b : GraphEdge V => a.weight ≤ b.weight)
        x m).filter (fun e => decide (e.weight = w)) =
      if x.weight = w
      then x :: m.filter (fun e => decide (e.weight = w))
      else m.filter (fun e => decide (e.weight = w)) := by
  intro m
  induction m with
  | nil =>
    by_cases hxw : x.weight = w <;>
      simp [List.orderedInsert, List.filter, hxw]
  | cons b m ih =>
    rw [List.orderedInsert]
    by_cases hxb : x.weight ≤ b.weight
    · rw [if_pos hxb]
      by_cases hxw : x.weight = w <;>
        simp [List.filter_cons, hxw]
    · rw [if_neg hxb]
      have hblt : b.weight < x.weight := lt_of_not_le hxb
      rw [List.filter_cons]
      by_cases hxw : x.weight = w
      · have hbw : ¬ b.weight = w := by
          intro hbw
          rw [hbw, hxw] at hblt
          exact absurd hblt (lt_irrefl w)
        rw [ih, if_pos hxw, if_pos hxw]
        simp [hbw]
      · rw [ih, if_neg hxw, if_neg hxw]
        by_cases hbw : b.weight = w <;> simp [hbw]

theorem sortEdges_filter (edges : List (GraphEdge V)) (w : Int) :
    (sortEdges edges).filter (fun e => decide (e.weight = w)) =
      edges.filter (fun e => decide (e.weight = w)) := by
  unfold sortEdges
  induction edges with
  | nil => rfl
  | cons x l ih =>
    rw [List.insertionSort, filter_orderedInsert, List.filter_cons]
    by_cases hxw : x.weight = w
    · rw [if_pos hxw, ih]
      simp [hxw]
    · rw [if_neg hxw, ih]
      simp [hxw]

/-- An edge of the processed list that is not selected was rejected: some
already-accepted edges, all of weight at most its own, connect its two
endpoints. -/
theorem kruskalSel_reject : ∀ (l F : List (GraphEdge V)),
    List.Pairwise (fun a b : GraphEdge V => a.weight ≤ b.weight) l →
    (∀ f, f ∈ F → ∀ x, x ∈ l → f.weight ≤ x.weight) →
    ∀ e, e ∈ l → e ∉ kruskalSel F l → e ∉ F →
    ∃ F', F'.Sublist (kruskalSel F l) ∧
      (∀ f, f ∈ F' → f.weight ≤ e.weight) ∧
      labelsOf (pairsOf F') e.start = labelsOf (pairsOf F') e.stop := by
  intro l
  induction l with
  | nil =>
    intro F _ _ e he
    cases he
  | cons e' rest ih =>
    intro F hsort hII e he hnotsel hnotF
    have hsort' := (List.pairwise_cons.1 hsort).2
    have hhead := (List.pairwise_cons.1 hsort).1
    by_cases hacc : labelsOf (pairsOf F) e'.start = labelsOf (pairsOf F) e'.stop
    · have hsel : kruskalSel F (e' :: rest) = kruskalSel F rest := by
        rw [kruskalSel, if_pos hacc]
      by_cases hee : e = e'
      · refine ⟨F, ?_, ?_, by rw [hee]; exact hacc⟩
        · obtain ⟨D, hD, _⟩ := kruskalSel_decomp (e' :: rest) F
          rw [hD]
          exact List.sublist_append_left F D
        · intro f hf
          exact hII f hf e he
      · have herest : e ∈ rest := by
          rcases List.mem_cons.1 he with h | h
          · exact absurd h hee
          · exact h
        rw [hsel] at hnotsel ⊢
        exact ih F hsort'
          (fun f hf x hx => hII f hf x (List.mem_cons_of_mem e' hx))
          e herest hnotsel hnotF
    · have hsel : kruskalSel F (e' :: rest) = kruskalSel (F ++ [e']) rest := by
        rw [kruskalSel, if_neg hacc]
      by_cases hee : e = e'
      · exfalso
        apply hnotsel
        obtain ⟨D, hD, _⟩ := kruskalSel_decomp rest (F ++ [e'])
        rw [hsel, hD, hee]
        exact List.mem_append.2 (Or.inl (List.mem_append.2 (Or.inr (by simp))))
      · have herest : e ∈ rest := by
          rcases List.mem_cons.1 he with h | h
          · exact absurd h hee
          · exact h
        rw [hsel] at hnotsel ⊢
        have hnotF' : e ∉ F ++ [e'] := by
          intro hmem
          rcases List.mem_append.1 hmem with h | h
          · exact hnotF h
          · simp only [List.mem_singleton] at h
            exact hee h
        refine ih (F ++ [e']) hsort' ?_ e herest hnotsel hnotF'
        intro f hf x hx
        rcases List.mem_append.1 hf with h | h
        · exact hII f h x (List.mem_cons_of_mem e' hx)
        · simp only [List.mem_singleton] at h
          rw [h]
          exact hhead x hx

/-- C6 counterexample: an input with two equal-weight edges on the disjoint
vertex pairs (0,2) and (1,3) where the later one is nevertheless rejected:
when (2,1,3) is reached, the accepted edges (1,0,1), (1,2,3), (2,0,2)
already connect 1 and 3, so the returned forest omits it. -/
theorem C6_counterexample :
    kruskal_mst [0, 1, 2, 3]
        [⟨1, 0, 1⟩, ⟨1, 2, 3⟩, ⟨2, 0, 2⟩, ⟨2, 1, 3⟩] =
      .ok ⟨[⟨1, 0, 1⟩, ⟨1, 2, 3⟩, ⟨2, 0, 2⟩], 4, .spanning⟩ ∧
    (⟨2, 0, 2⟩ : GraphEdge Nat).weight = (⟨2, 1, 3⟩ : GraphEdge Nat).weight ∧
    (⟨2, 1, 3⟩ : GraphEdge Nat) ∉
      ([⟨1, 0, 1⟩, ⟨1, 2, 3⟩, ⟨2, 0, 2⟩] : List (GraphEdge Nat)) :=
  ⟨by rfl, rfl, by decide⟩

/-- C6 amended: the edges are processed in a stably sorted order ascending
by weight (the edges of each weight keep their relative input order); any
set of equal-weight edges appears in the returned forest in its original
relative input order; and an input edge missing from the forest was
rejected only because previously accepted edges of no greater weight
already connected its endpoints. -/
theorem C6_stable_processing :
    (∀ (V : Type) [DecidableEq V] (edges : List (GraphEdge V)),
      List.Pairwise (fun a b : GraphEdge V => a.weight ≤ b.weight)
        (sortEdges edges) ∧
      ∀ w, (sortEdges edges).filter (fun e => decide (e.weight = w)) =
        edges.filter (fun e => decide (e.weight = w))) ∧
    (∀ (V : Type) [DecidableEq V] (vs : List V) (edges : List (GraphEdge V))
      (res : KResult V), (∀ e, e ∈ edges → e.start ∈ vs ∧ e.stop ∈ vs) →
      kruskal_mst vs edges = .ok res →
      ∀ w, ((res.forest.filter (fun e => decide (e.weight = w))).Sublist
        (edges.filter (fun e => decide (e.weight = w))))) ∧
    (∀ (V : Type) [DecidableEq V] (vs : List V) (edges : List (GraphEdge V))
      (res : KResult V), (∀ e, e ∈ edges → e.start ∈ vs ∧ e.stop ∈ vs) →
      kruskal_mst vs edges = .ok res →
      ∀ e, e ∈ edges → e ∉ res.forest →
      ∃ F', F'.Sublist res.forest ∧
        (∀ f, f ∈ F' → f.weight ≤ e.weight) ∧
        labelsOf (pairsOf F') e.start = labelsOf (pairsOf F') e.stop) := by
  have hforest : ∀ (V : Type) [DecidableEq V] (vs : List V)
      (edges : List (GraphEdge V)) (res : KResult V),
      (∀ e, e ∈ edges → e.start ∈ vs ∧ e.stop ∈ vs) →
      kruskal_mst vs edges = .ok res →
      res.forest = [] ∨ res.forest = kruskalSel [] (sortEdges edges) := by
    intro V _ vs edges res hl hres
    by_cases hv : vs = []
    · rw [kruskal_mst_empty (Or.inl hv)] at hres
      rw [← Except.ok.inj hres]
      exact Or.inl rfl
    by_cases he : edges = []
    · rw [kruskal_mst_empty (Or.inr he)] at hres
      rw [← Except.ok.inj hres]
      exact Or.inl rfl
    obtain ⟨c, hrun, _⟩ := kruskal_mst_run hv he hl
    rw [hres] at hrun
    exact Or.inr (by rw [Except.ok.inj hrun])
  refine ⟨?_, ?_, ?_⟩
  · intro V _ edges
    exact ⟨sortEdges_sorted edges, sortEdges_filter edges⟩
  · intro V _ vs edges res hl hres w
    rcases hforest V vs edges res hl hres with h | h
    · rw [h]
      simp only [List.filter_nil]
      exact List.nil_sublist _
    · rw [h, ← sortEdges_filter edges w]
      refine List.Sublist.filter _ ?_
      have hsub := kruskalSel_sublist (sortEdges edges) []
      rw [List.nil_append] at hsub
      exact hsub
  · intro V _ vs edges res hl hres e he hnot
    rcases hforest V vs edges res hl hres with h | h
    · -- empty forest: the run reported insufficient input, so either the
      -- vertex or edge list was empty; with e ∈ edges and its endpoints in
      -- vs both are nonempty, so the forest is the full selection and this
      -- case is impossible unless the selection itself is empty.
      by_cases hv : vs = []
      · obtain ⟨hs, _⟩ := hl e he
        rw [hv] at hs
        cases hs
      by_cases hedg : edges = []
      · rw [hedg] at he
        cases he
      obtain ⟨c, hrun, _⟩ := kruskal_mst_run hv hedg hl
      rw [hres] at hrun
      have h2 : res.forest = kruskalSel [] (sortEdges edges) := by
        rw [Except.ok.inj hrun]
      rw [h] at h2
      rw [h]
      have hesort : e ∈ sortEdges edges :=
        ((List.perm_insertionSort _ edges).symm.subset) he
      have hnot' : e ∉ kruskalSel [] (sortEdges edges) := by
        rw [← h2]
        simp
      obtain ⟨F', hF1, hF2, hF3⟩ := kruskalSel_reject (sortEdges edges) []
        (sortEdges_sorted edges) (by intro f hf; cases hf) e hesort hnot'
        (by intro hf; cases hf)
      rw [← h2] at hF1
      exact ⟨F', hF1, hF2, hF3⟩
    · rw [h] at hnot ⊢
      have hesort : e ∈ sortEdges edges :=
        ((List.perm_insertionSort _ edges).symm.subset) he
      exact kruskalSel_reject (sortEdges edges) [] (sortEdges_sorted edges)
        (by intro f hf; cases hf) e hesort hnot (by intro hf; cases hf)

/-- Witness for the quantified parts of C6 at the counterexample input. -/
theorem C6_witness :
    ∀ w, ((((⟨[⟨1, 0, 1⟩, ⟨1, 2, 3⟩, ⟨2, 0, 2⟩], 4, .spanning⟩ :
        KResult Nat)).forest.filter (fun e => decide (e.weight = w))).Sublist
      (([⟨1, 0, 1⟩, ⟨1, 2, 3⟩, ⟨2, 0, 2⟩, ⟨2, 1, 3⟩] :
        List (GraphEdge Nat)).filter (fun e => decide (e.weight = w)))) :=
  C6_stable_processing.2.1 Nat [0, 1, 2, 3]
    [⟨1, 0, 1⟩, ⟨1, 2, 3⟩, ⟨2, 0, 2⟩, ⟨2, 1, 3⟩]
    ⟨[⟨1, 0, 1⟩, ⟨1, 2, 3⟩, ⟨2, 0, 2⟩], 4, .spanning⟩ (by decide) (by rfl)

/-! ### The label map computes the equivalence closure of the merged pairs -/

omit [DecidableEq V] in
theorem EqC.mono {R S : V → V → Prop} (h : ∀ x y, R x y → EqC S x y) :
    ∀ {x y : V}, EqC R x y → EqC S x y := by
  intro x y hxy
  induction hxy with
  | rel h' => exact h _ _ h'
  | refl z => exact .refl z
  | symm _ ih => exact .symm ih
  | trans _ _ ih1 ih2 => exact .trans ih1 ih2

omit [DecidableEq V] in
theorem EqC.toKernel {R : V → V → Prop} {f : V → V}
    (h : ∀ x y, R x y → f x = f y) : ∀ {x y : V}, EqC R x y → f x = f y := by
  intro x y hxy
  induction hxy with
  | rel h' => exact h _ _ h'
  | refl z => rfl
  | symm _ ih => exact ih.symm
  | trans _ _ ih1 ih2 => exact ih1.trans ih2

theorem foldl_merge_eq_iff : ∀ (ps : List (V × V)) (f : V → V) (x y : V),
    (ps.foldl (fun g q => mergeLabels g q.1 q.2) f) x =
      (ps.foldl (fun g q => mergeLabels g q.1 q.2) f) y ↔
    EqC (fun u w => f u = f w ∨ prel ps u w) x y := by
  intro ps
  induction ps with
  | nil =>
    intro f x y
    simp only [List.foldl_nil]
    constructor
    · intro h
      exact .rel (Or.inl h)
    · intro h
      refine h.toKernel (f := f) ?_
      intro u w huw
      rcases huw with huw | huw
      · exact huw
      · rcases huw with huw | huw <;> cases huw
  | cons q ps ih =>
    intro f x y
    rw [List.foldl_cons, ih (mergeLabels f q.1 q.2) x y]
    have hab : mergeLabels f q.1 q.2 q.1 = mergeLabels f q.1 q.2 q.2 := by
      unfold mergeLabels
      by_cases h1 : f q.1 = f q.2 <;> simp [h1]
    constructor
    · refine EqC.mono ?_
      intro u w huw
      rcases huw with huw | huw
      · have hc := relabel_eq_iff.1 huw
        rcases hc with hc | ⟨hu, hw⟩
        · exact .rel (Or.inl hc)
        · have hua : EqC (fun u w => f u = f w ∨ prel (q :: ps) u w) u q.1 := by
            rcases hu with hu | hu
            · exact .rel (Or.inl hu)
            · exact .trans (.rel (Or.inl hu))
                (.symm (.rel (Or.inr (Or.inl (by simp)))))
          have hwa : EqC (fun u w => f u = f w ∨ prel (q :: ps) u w) w q.1 := by
            rcases hw with hw | hw
            · exact .rel (Or.inl hw)
            · exact .trans (.rel (Or.inl hw))
                (.symm (.rel (Or.inr (Or.inl (by simp)))))
          exact .trans hua (.symm hwa)
      · exact .rel (Or.inr (by
          rcases huw with huw | huw
          · exact Or.inl (List.mem_cons_of_mem q huw)
          · exact Or.inr (List.mem_cons_of_mem q huw)))
    · refine EqC.mono ?_
      intro u w huw
      rcases huw with huw | huw
      · refine .rel (Or.inl ?_)
        unfold mergeLabels
        rw [huw]
      · rcases huw with huw | huw
        · rcases List.mem_cons.1 huw with huw | huw
          · have h1 : u = q.1 := by rw [← huw]
            have h2 : w = q.2 := by rw [← huw]
            rw [h1, h2]
            exact .rel (Or.inl hab)
          · exact .rel (Or.inr (Or.inl huw))
        · rcases List.mem_cons.1 huw with huw | huw
          · have h1 : w = q.1 := by rw [← huw]
            have h2 : u = q.2 := by rw [← huw]
            rw [h1, h2]
            exact .symm (.rel (Or.inl hab))
          · exact .rel (Or.inr (Or.inr huw))

theorem labelsOf_eq_iff (ps : List (V × V)) (x y : V) :
    labelsOf ps x = labelsOf ps y ↔ EqC (prel ps) x y := by
  unfold labelsOf
  rw [foldl_merge_eq_iff]
  constructor
  · refine EqC.mono ?_
    intro u w huw
    rcases huw with huw | huw
    · rw [show u = w from huw]
      exact .refl w
    · exact .rel huw
  · refine EqC.mono ?_
    intro u w huw
    exact .rel (Or.inr huw)

/-! ### Counting label classes -/

theorem toFinset_map_eq {α β : Type} [DecidableEq α] [DecidableEq β]
    (l : List α) (h : α → β) : (l.map h).toFinset = l.toFinset.image h := by
  ext z
  simp [List.mem_toFinset, List.mem_map, Finset.mem_image]

theorem dedupLen_map_le {α β γ : Type} [DecidableEq β] [DecidableEq γ]
    (l : List α) (f : α → β) (g : α → γ)
    (h : ∀ x, x ∈ l → ∀ y, y ∈ l → f x = f y → g x = g y) :
    ((l.map g).dedup).length ≤ ((l.map f).dedup).length := by
  induction l with
  | nil => simp
  | cons a t ih =>
    simp only [List.map_cons]
    have hmem : f a ∈ t.map f → g a ∈ t.map g := by
      intro hf
      obtain ⟨x, hx, hfx⟩ := List.mem_map.1 hf
      exact List.mem_map.2 ⟨x, hx,
        h x (List.mem_cons_of_mem a hx) a (List.mem_cons_self a t) hfx⟩
    have iht := ih (fun x hx y hy =>
      h x (List.mem_cons_of_mem a hx) y (List.mem_cons_of_mem a hy))
    by_cases hf : f a ∈ t.map f
    · rw [List.dedup_cons_of_mem hf]
      by_cases hg : g a ∈ t.map g
      · rw [List.dedup_cons_of_mem hg]
        exact iht
      · exact absurd (hmem hf) hg
    · rw [List.dedup_cons_of_not_mem hf]
      by_cases hg : g a ∈ t.map g
      · rw [List.dedup_cons_of_mem hg]
        exact le_trans iht (by simp)
      · rw [List.dedup_cons_of_not_mem hg]
        simpa using iht

theorem dedupLen_map_congr {α β γ : Type} [DecidableEq β] [DecidableEq γ]
    (l : List α) (f : α → β) (g : α → γ)
    (h : ∀ x, x ∈ l → ∀ y, y ∈ l → (f x = f y ↔ g x = g y)) :
    ((l.map g).dedup).length = ((l.map f).dedup).length :=
  Nat.le_antisymm
    (dedupLen_map_le l f g (fun x hx y hy => (h x hx y hy).1))
    (dedupLen_map_le l g f (fun x hx y hy => (h x hx y hy).2))

theorem dedupLen_map_relabel {α : Type} [DecidableEq α] {l : List α} {a b : α}
    (ha : a ∈ l) (hb : b ∈ l) (hab : a ≠ b) :
    ((l.map (relabel a b)).dedup).length + 1 = l.dedup.length := by
  rw [← List.card_toFinset, ← List.card_toFinset, toFinset_map_eq]
  have himg : l.toFinset.image (relabel a b) = insert a (l.toFinset.erase b) := by
    ext z
    simp only [Finset.mem_image, List.mem_toFinset, Finset.mem_insert,
      Finset.mem_erase]
    constructor
    · rintro ⟨w, hw, hwz⟩
      unfold relabel at hwz
      by_cases hwb : w = b
      · rw [if_pos hwb] at hwz
        exact Or.inl hwz.symm
      · rw [if_neg hwb] at hwz
        rw [← hwz]
        exact Or.inr ⟨hwb, hw⟩
    · rintro (hz | ⟨hzb, hz⟩)
      · refine ⟨b, hb, ?_⟩
        unfold relabel
        rw [if_pos rfl, hz]
      · refine ⟨z, hz, ?_⟩
        unfold relabel
        rw [if_neg hzb]
  rw [himg]
  have hmem : a ∈ l.toFinset.erase b :=
    Finset.mem_erase.2 ⟨hab, List.mem_toFinset.2 ha⟩
  rw [Finset.insert_eq_self.2 hmem]
  rw [Finset.card_erase_of_mem (List.mem_toFinset.2 hb)]
  have hpos : 0 < l.toFinset.card :=
    Finset.card_pos.2 ⟨b, List.mem_toFinset.2 hb⟩
  omega

theorem dedupLen_map_relabel_ge {α : Type} [DecidableEq α] (l : List α)
    (a b : α) : l.dedup.length ≤ ((l.map (relabel a b)).dedup).length + 1 := by
  rw [← List.card_toFinset, ← List.card_toFinset, toFinset_map_eq]
  have hsub : l.toFinset.erase b ⊆ l.toFinset.image (relabel a b) := by
    intro z hz
    obtain ⟨hzb, hzl⟩ := Finset.mem_erase.1 hz
    exact Finset.mem_image.2 ⟨z, hzl, by unfold relabel; rw [if_neg hzb]⟩
  have h1 : l.toFinset.card ≤ (l.toFinset.erase b).card + 1 := by
    by_cases hbl : b ∈ l.toFinset
    · rw [Finset.card_erase_of_mem hbl]
      have hpos : 0 < l.toFinset.card := Finset.card_pos.2 ⟨b, hbl⟩
      omega
    · rw [Finset.erase_eq_of_not_mem hbl]
      omega
  exact le_trans h1 (Nat.succ_le_succ (Finset.card_le_card hsub))

theorem labelClasses_map_relabel (F : List (GraphEdge V)) (vs : List V)
    (e : GraphEdge V) :
    (vs.map (labelsOf (pairsOf (F ++ [e])))).dedup.length =
      ((vs.map (labelsOf (pairsOf F))).map
        (relabel (labelsOf (pairsOf F) e.start)
          (labelsOf (pairsOf F) e.stop))).dedup.length := by
  rw [pairsOf_snoc, labelsOf_snoc, List.map_map]
  rfl

theorem labelClasses_snoc_of_merge {F : List (GraphEdge V)} {vs : List V}
    {e : GraphEdge V} (hs : e.start ∈ vs) (ht : e.stop ∈ vs)
    (hne : labelsOf (pairsOf F) e.start ≠ labelsOf (pairsOf F) e.stop) :
    labelClasses (F ++ [e]) vs + 1 = labelClasses F vs := by
  unfold labelClasses
  rw [labelClasses_map_relabel]
  exact dedupLen_map_relabel
    (List.mem_map.2 ⟨e.start, hs, rfl⟩)
    (List.mem_map.2 ⟨e.stop, ht, rfl⟩)
    hne

theorem labelClasses_snoc_ge (F : List (GraphEdge V)) (vs : List V)
    (e : GraphEdge V) :
    labelClasses F vs ≤ labelClasses (F ++ [e]) vs + 1 := by
  unfold labelClasses
  rw [labelClasses_map_relabel]
  exact dedupLen_map_relabel_ge _ _ _

theorem labelClasses_nil (vs : List V) :
    labelClasses ([] : List (GraphEdge V)) vs = vs.dedup.length := by
  unfold labelClasses pairsOf labelsOf
  simp

theorem labelClasses_append_ge : ∀ (D S : List (GraphEdge V)) (vs : List V),
    labelClasses S vs ≤ labelClasses (S ++ D) vs + D.length := by
  intro D
  induction D using List.reverseRecOn with
  | nil =>
    intro S vs
    simp
  | append_singleton D' d ih =>
    intro S vs
    have h1 := ih S vs
    have h2 := labelClasses_snoc_ge (S ++ D') vs d
    rw [← List.append_assoc]
    have h3 : (D' ++ [d]).length = D'.length + 1 := by simp
    omega

theorem dedupLen_le_labelClasses_add (E : List (GraphEdge V)) (vs : List V) :
    vs.dedup.length ≤ labelClasses E vs + E.length := by
  have h := labelClasses_append_ge E [] vs
  rw [List.nil_append, labelClasses_nil] at h
  exact h

theorem labelClasses_perm {E E' : List (GraphEdge V)} (h : E.Perm E')
    (vs : List V) : labelClasses E vs = labelClasses E' vs := by
  unfold labelClasses
  refine dedupLen_map_congr vs _ _ ?_
  intro x _ y _
  rw [labelsOf_eq_iff, labelsOf_eq_iff]
  have hiff : ∀ u w, prel (pairsOf E) u w ↔ prel (pairsOf E') u w := by
    intro u w
    unfold prel pairsOf
    rw [(h.map (fun e => (e.start, e.stop))).mem_iff,
      (h.map (fun e => (e.start, e.stop))).mem_iff]
  constructor
  · exact EqC.mono (fun u w huw => .rel ((hiff u w).2 huw))
  · exact EqC.mono (fun u w huw => .rel ((hiff u w).1 huw))

theorem labelClasses_subperm_eq {S T : List (GraphEdge V)} {vs : List V}
    (hsub : S.Subperm T)
    (hT : labelClasses T vs + T.length = vs.dedup.length) :
    labelClasses S vs + S.length = vs.dedup.length := by
  obtain ⟨l, hlS, hlT⟩ := hsub
  obtain ⟨D, hD⟩ := hlT.exists_perm_append
  have h1 : labelClasses T vs = labelClasses (S ++ D) vs :=
    labelClasses_perm (hD.trans (hlS.append_right D)) vs
  have h2 : labelClasses S vs ≤ labelClasses (S ++ D) vs + D.length :=
    labelClasses_append_ge D S vs
  have h3 : vs.dedup.length ≤ labelClasses S vs + S.length :=
    dedupLen_le_labelClasses_add S vs
  have hlen : T.length = S.length + D.length := by
    have h4 := hD.length_eq
    rw [List.length_append] at h4
    have h5 := hlS.length_eq
    omega
  omega

/-! ### Connectivity and class count of the selection -/

theorem sameLabel_of_mem {E : List (GraphEdge V)} {e : GraphEdge V}
    (he : e ∈ E) :
    labelsOf (pairsOf E) e.start = labelsOf (pairsOf E) e.stop := by
  rw [labelsOf_eq_iff]
  exact .rel (Or.inl (List.mem_map.2 ⟨e, he, rfl⟩))

theorem sameLabel_mono_append {F D : List (GraphEdge V)} {x y : V}
    (h : labelsOf (pairsOf F) x = labelsOf (pairsOf F) y) :
    labelsOf (pairsOf (F ++ D)) x = labelsOf (pairsOf (F ++ D)) y := by
  rw [labelsOf_eq_iff] at h ⊢
  refine EqC.mono ?_ h
  intro u w huw
  refine .rel ?_
  have hpa : pairsOf (F ++ D) = pairsOf F ++ pairsOf D := by
    unfold pairsOf
    rw [List.map_append]
  unfold prel at huw ⊢
  rw [hpa]
  rcases huw with huw | huw
  · exact Or.inl (List.mem_append.2 (Or.inl huw))
  · exact Or.inr (List.mem_append.2 (Or.inl huw))

theorem kruskalSel_connects : ∀ (l F : List (GraphEdge V)) (e : GraphEdge V),
    e ∈ l → labelsOf (pairsOf (kruskalSel F l)) e.start =
      labelsOf (pairsOf (kruskalSel F l)) e.stop := by
  intro l
  induction l with
  | nil =>
    intro F e he
    cases he
  | cons e' rest ih =>
    intro F e he
    by_cases hacc : labelsOf (pairsOf F) e'.start = labelsOf (pairsOf F) e'.stop
    · rw [kruskalSel, if_pos hacc]
      rcases List.mem_cons.1 he with hee | hee
      · obtain ⟨D, hD, _⟩ := kruskalSel_decomp rest F
        rw [hD, hee]
        exact sameLabel_mono_append hacc
      · exact ih F e hee
    · rw [kruskalSel, if_neg hacc]
      rcases List.mem_cons.1 he with hee | hee
      · obtain ⟨D, hD, _⟩ := kruskalSel_decomp rest (F ++ [e'])
        rw [hee]
        apply sameLabel_of_mem
        rw [hD]
        exact List.mem_append.2 (Or.inl (List.mem_append.2 (Or.inr (by simp))))
      · exact ih (F ++ [e']) e hee

theorem labelClasses_indep_count : ∀ (D F : List (GraphEdge V)) (vs : List V),
    (∀ e, e ∈ D → e.start ∈ vs ∧ e.stop ∈ vs) →
    (∀ P e S, D = P ++ e :: S →
      labelsOf (pairsOf (F ++ P)) e.start ≠
        labelsOf (pairsOf (F ++ P)) e.stop) →
    labelClasses (F ++ D) vs + D.length = labelClasses F vs := by
  intro D
  induction D with
  | nil =>
    intro F vs _ _
    simp
  | cons e D' ih =>
    intro F vs hmem hind
    have hne : labelsOf (pairsOf F) e.start ≠ labelsOf (pairsOf F) e.stop := by
      have h := hind [] e D' rfl
      rwa [List.append_nil] at h
    obtain ⟨hs, ht⟩ := hmem e (List.mem_cons_self e D')
    have hstep := labelClasses_snoc_of_merge hs ht hne
    have hind' : ∀ P e' S, D' = P ++ e' :: S →
        labelsOf (pairsOf ((F ++ [e]) ++ P)) e'.start ≠
          labelsOf (pairsOf ((F ++ [e]) ++ P)) e'.stop := by
      intro P e' S hsplit
      have h := hind (e :: P) e' S (by rw [hsplit, List.cons_append])
      rw [List.append_assoc]
      exact h
    have hrec := ih (F ++ [e]) vs
      (fun x hx => hmem x (List.mem_cons_of_mem e hx)) hind'
    have hassoc : F ++ e :: D' = (F ++ [e]) ++ D' := by simp
    rw [hassoc]
    simp only [List.length_cons]
    omega

theorem indep_take {D F : List (GraphEdge V)} (j : Nat)
    (hind : ∀ P e S, D = P ++ e :: S →
      labelsOf (pairsOf (F ++ P)) e.start ≠
        labelsOf (pairsOf (F ++ P)) e.stop) :
    ∀ P e S, D.take j = P ++ e :: S →
      labelsOf (pairsOf (F ++ P)) e.start ≠
        labelsOf (pairsOf (F ++ P)) e.stop := by
  intro P e S hsplit
  refine hind P e (S ++ D.drop j) ?_
  conv_lhs => rw [← List.take_append_drop j D]
  rw [hsplit, List.append_assoc, List.cons_append]

theorem labelClasses_eq_one_of_all_eq {E : List (GraphEdge V)} {vs : List V}
    (hne : vs ≠ [])
    (h : ∀ x, x ∈ vs → ∀ y, y ∈ vs →
      labelsOf (pairsOf E) x = labelsOf (pairsOf E) y) :
    labelClasses E vs = 1 := by
  unfold labelClasses
  rw [← List.card_toFinset]
  cases vs with
  | nil => exact absurd rfl hne
  | cons v tl =>
    rw [Finset.card_eq_one]
    refine ⟨labelsOf (pairsOf E) v, ?_⟩
    ext z
    simp only [List.mem_toFinset, List.mem_map, Finset.mem_singleton]
    constructor
    · rintro ⟨x, hx, hxz⟩
      rw [← hxz]
      exact h x hx v (List.mem_cons_self v tl)
    · intro hz
      exact ⟨v, List.mem_cons_self v tl, hz.symm⟩

theorem spans_to_labels {E F : List (GraphEdge V)}
    (htrans : ∀ e, e ∈ E →
      labelsOf (pairsOf F) e.start = labelsOf (pairsOf F) e.stop)
    {x y : V} (h : EqC (erel E) x y) :
    labelsOf (pairsOf F) x = labelsOf (pairsOf F) y := by
  refine h.toKernel ?_
  intro u w huw
  obtain ⟨e, he, hor⟩ := huw
  rcases hor with ⟨h1, h2⟩ | ⟨h1, h2⟩
  · rw [← h1, ← h2]
    exact htrans e he
  · rw [← h1, ← h2]
    exact (htrans e he).symm

theorem labels_to_spans {E : List (GraphEdge V)} {x y : V}
    (h : labelsOf (pairsOf E) x = labelsOf (pairsOf E) y) :
    EqC (erel E) x y := by
  rw [labelsOf_eq_iff] at h
  refine EqC.mono ?_ h
  intro u w huw
  rcases huw with huw | huw
  · obtain ⟨e, he, hpair⟩ := List.mem_map.1 huw
    exact .rel ⟨e, he, Or.inl ⟨congrArg Prod.fst hpair, congrArg Prod.snd hpair⟩⟩
  · obtain ⟨e, he, hpair⟩ := List.mem_map.1 huw
    exact .rel ⟨e, he, Or.inr ⟨congrArg Prod.fst hpair, congrArg Prod.snd hpair⟩⟩

/-! ### Pointwise weight comparison machinery -/

theorem take_internal_of_lt {F D : List (GraphEdge V)} {e : GraphEdge V}
    (hw : ∀ f, f ∈ F → f.weight ≤ e.weight)
    (hcond : labelsOf (pairsOf F) e.start = labelsOf (pairsOf F) e.stop ∨ e ∈ F) :
    ∀ j (hj : j < (F ++ D).length),
      e.weight < ((F ++ D).get ⟨j, hj⟩).weight →
      labelsOf (pairsOf ((F ++ D).take j)) e.start =
        labelsOf (pairsOf ((F ++ D).take j)) e.stop := by
  intro j hj hlt
  by_cases hjF : j < F.length
  · exfalso
    rw [List.get_append j hjF] at hlt
    exact absurd hlt (not_lt.2 (hw _ (List.get_mem F j hjF)))
  · have hjF' : F.length ≤ j := Nat.le_of_not_lt hjF
    have htake : (F ++ D).take j = F ++ D.take (j - F.length) := by
      rw [List.take_append_eq_append_take, List.take_all_of_le hjF']
    rw [htake]
    rcases hcond with hcond | hcond
    · exact sameLabel_mono_append hcond
    · exact sameLabel_of_mem (List.mem_append.2 (Or.inl hcond))

/-- Every input edge strictly lighter than the j-th selected edge has its
endpoints already connected by the first j selected edges. -/
theorem kruskalSel_lt_internal :
    ∀ (l F : List (GraphEdge V)),
    List.Pairwise (fun a b : GraphEdge V => a.weight ≤ b.weight) l →
    (∀ f, f ∈ F → ∀ x, x ∈ l → f.weight ≤ x.weight) →
    ∀ e, e ∈ l → ∀ j (hj : j < (kruskalSel F l).length),
      e.weight < ((kruskalSel F l).get ⟨j, hj⟩).weight →
      labelsOf (pairsOf ((kruskalSel F l).take j)) e.start =
        labelsOf (pairsOf ((kruskalSel F l).take j)) e.stop := by
  intro l
  induction l with
  | nil =>
    intro F _ _ e he
    cases he
  | cons e' rest ih =>
    intro F hsort hII e he
    have hsort' := (List.pairwise_cons.1 hsort).2
    have hhead := (List.pairwise_cons.1 hsort).1
    by_cases hacc : labelsOf (pairsOf F) e'.start = labelsOf (pairsOf F) e'.stop
    · rw [kruskalSel, if_pos hacc]
      rcases List.mem_cons.1 he with hee | hee
      · obtain ⟨D, hD, _⟩ := kruskalSel_decomp rest F
        rw [hD]
        refine take_internal_of_lt (fun f hf => hII f hf e he) ?_
        exact Or.inl (by rw [hee]; exact hacc)
      · exact ih F hsort'
          (fun f hf x hx => hII f hf x (List.mem_cons_of_mem e' hx)) e hee
    · rw [kruskalSel, if_neg hacc]
      have hII' : ∀ f, f ∈ F ++ [e'] → ∀ x, x ∈ rest → f.weight ≤ x.weight := by
        intro f hf x hx
        rcases List.mem_append.1 hf with h | h
        · exact hII f h x (List.mem_cons_of_mem e' hx)
        · simp only [List.mem_singleton] at h
          rw [h]
          exact hhead x hx
      rcases List.mem_cons.1 he with hee | hee
      · obtain ⟨D, hD, _⟩ := kruskalSel_decomp rest (F ++ [e'])
        rw [hD]
        refine take_internal_of_lt ?_ ?_
        · intro f hf
          rcases List.mem_append.1 hf with h | h
          · exact hII f h e he
          · simp only [List.mem_singleton] at h
            rw [h, hee]
        · exact Or.inr (by rw [hee]; exact List.mem_append.2 (Or.inr (by simp)))
      · exact ih (F ++ [e']) hsort' hII' e hee


theorem sorted_take_le {T : List (GraphEdge V)}
    (hs : List.Pairwise (fun a b : GraphEdge V => a.weight ≤ b.weight) T)
    {j : Nat} (hj : j < T.length) :
    ∀ t, t ∈ T.take (j + 1) → t.weight ≤ (T.get ⟨j, hj⟩).weight := by
  intro t ht
  obtain ⟨⟨i, hi⟩, hit⟩ := List.mem_iff_get.1 ht
  have hlen : (T.take (j + 1)).length = min (j + 1) T.length :=
    List.length_take _ _
  have hij : i < j + 1 := lt_of_lt_of_le hi (by rw [hlen]; exact min_le_left _ _)
  have hiT : i < T.length := lt_of_lt_of_le hi (by rw [hlen]; exact min_le_right _ _)
  have hget : t = T.get ⟨i, hiT⟩ := by
    rw [← hit]
    exact (List.get_take T hiT hij).symm
  rcases Nat.lt_or_ge i j with hij' | hij'
  · have h := List.pairwise_iff_get.1 hs ⟨i, hiT⟩ ⟨j, hj⟩ hij'
    rw [hget]
    exact h
  · have hieq : i = j := Nat.le_antisymm (Nat.lt_succ_iff.1 hij) hij'
    subst hieq
    rw [hget]

omit [DecidableEq V] in
theorem sumW_le_of_get_le : ∀ (A B : List (GraphEdge V)), A.length = B.length →
    (∀ j (hja : j < A.length) (hjb : j < B.length),
      (A.get ⟨j, hja⟩).weight ≤ (B.get ⟨j, hjb⟩).weight) →
    sumW A ≤ sumW B := by
  intro A
  induction A with
  | nil =>
    intro B hlen _
    have hB : B = [] := (List.length_eq_zero).1 hlen.symm
    rw [hB]
  | cons a A' ih =>
    intro B hlen hj
    cases B with
    | nil => cases hlen
    | cons b B' =>
      have h0 := hj 0 (by simp) (by simp)
      have hlen' : A'.length = B'.length := by
        simpa using hlen
      have ht := ih B' hlen'
        (fun j hja hjb => hj (j + 1) (by simpa using Nat.succ_lt_succ hja)
          (by simpa using Nat.succ_lt_succ hjb))
      simp only [sumW, List.map_cons, List.sum_cons] at h0 ht ⊢
      exact add_le_add h0 ht

omit [DecidableEq V] in
theorem sumW_perm {A B : List (GraphEdge V)} (h : A.Perm B) : sumW A = sumW B := by
  unfold sumW
  exact (h.map GraphEdge.weight).sum_eq

theorem labelClasses_le_of_internal {E G : List (GraphEdge V)} {vs : List V}
    (h : ∀ t, t ∈ E →
      labelsOf (pairsOf G) t.start = labelsOf (pairsOf G) t.stop) :
    labelClasses G vs ≤ labelClasses E vs := by
  unfold labelClasses
  refine dedupLen_map_le vs _ _ ?_
  intro x _ y _ hxy
  rw [labelsOf_eq_iff] at hxy
  refine hxy.toKernel ?_
  intro u w huw
  rcases huw with huw | huw
  · obtain ⟨t, htE, hpair⟩ := List.mem_map.1 huw
    have h1 : t.start = u := congrArg Prod.fst hpair
    have h2 : t.stop = w := congrArg Prod.snd hpair
    rw [← h1, ← h2]
    exact h t htE
  · obtain ⟨t, htE, hpair⟩ := List.mem_map.1 huw
    have h1 : t.start = w := congrArg Prod.fst hpair
    have h2 : t.stop = u := congrArg Prod.snd hpair
    rw [← h1, ← h2]
    exact (h t htE).symm

/-! ### C1: Kruskal computes a minimum spanning tree -/

/-- C1: on a nonempty, duplicate-free vertex list and a nonempty edge list
whose endpoints all lie in the vertex list and which connects all vertices,
`kruskal_mst` succeeds; the returned forest has exactly `|vertices| - 1`
edges, its reported total is its weight, it is itself a spanning tree of
the graph, and its weight is minimal among all spanning trees — so the
returned total equals the minimum spanning tree weight. -/
theorem C1_minimum_spanning_tree (vs : List V) (edges : List (GraphEdge V))
    (hvne : vs ≠ []) (hene : edges ≠ []) (hnd : vs.Nodup)
    (hl : ∀ e, e ∈ edges → e.start ∈ vs ∧ e.stop ∈ vs)
    (hconn : Spans edges vs) :
    ∃ res, kruskal_mst vs edges = .ok res ∧
      res.forest.length = vs.length - 1 ∧
      res.total = sumW res.forest ∧
      IsSpanningTree vs edges res.forest ∧
      (∀ T, IsSpanningTree vs edges T → res.total ≤ sumW T) := by
  obtain ⟨c, hrun, hc⟩ := kruskal_mst_run hvne hene hl
  have hsortmem : ∀ e, e ∈ sortEdges edges → e ∈ edges :=
    fun e he => (List.perm_insertionSort _ edges).subset he
  have hmemsort : ∀ e, e ∈ edges → e ∈ sortEdges edges :=
    fun e he => (List.perm_insertionSort _ edges).symm.subset he
  obtain ⟨D, hD, hindep⟩ := kruskalSel_decomp (sortEdges edges) []
  rw [List.nil_append] at hD
  have hRsub : ∀ e, e ∈ kruskalSel [] (sortEdges edges) → e ∈ edges := by
    intro e he
    have hsub := kruskalSel_sublist (sortEdges edges) []
    rw [List.nil_append] at hsub
    exact hsortmem e (hsub.subset he)
  have hmemD : ∀ e, e ∈ D → e.start ∈ vs ∧ e.stop ∈ vs := by
    intro e he
    exact hl e (hRsub e (by rw [hD]; exact he))
  have hn1 : 1 ≤ vs.length := List.length_pos.2 hvne
  have hcnt : labelClasses (kruskalSel [] (sortEdges edges)) vs +
      (kruskalSel [] (sortEdges edges)).length = vs.length := by
    rw [hD]
    have h := labelClasses_indep_count D [] vs hmemD hindep
    rw [List.nil_append, labelClasses_nil, List.dedup_eq_self.2 hnd] at h
    exact h
  have hallEq : ∀ x, x ∈ vs → ∀ y, y ∈ vs →
      labelsOf (pairsOf (kruskalSel [] (sortEdges edges))) x =
      labelsOf (pairsOf (kruskalSel [] (sortEdges edges))) y := by
    intro x hx y hy
    refine spans_to_labels ?_ (hconn x hx y hy)
    intro e he
    exact kruskalSel_connects (sortEdges edges) [] e (hmemsort e he)
  have hone : labelClasses (kruskalSel [] (sortEdges edges)) vs = 1 :=
    labelClasses_eq_one_of_all_eq hvne hallEq
  have hlen : (kruskalSel [] (sortEdges edges)).length = vs.length - 1 := by
    omega
  have hRtree : IsSpanningTree vs edges (kruskalSel [] (sortEdges edges)) := by
    refine ⟨?_, ?_, hlen⟩
    · have hsub := kruskalSel_sublist (sortEdges edges) []
      rw [List.nil_append] at hsub
      exact hsub.subperm.trans (List.perm_insertionSort _ edges).subperm
    · intro x hx y hy
      exact labels_to_spans (hallEq x hx y hy)
  have hmin : ∀ T, IsSpanningTree vs edges T →
      sumW (kruskalSel [] (sortEdges edges)) ≤ sumW T := by
    intro T hT
    obtain ⟨hTsub, hTspan, hTlen⟩ := hT
    have hperm := List.perm_insertionSort
      (fun a b : GraphEdge V => a.weight ≤ b.weight) T
    have hT'len : (sortEdges T).length = T.length := hperm.length_eq
    have hT'sorted := sortEdges_sorted T
    have hTone : labelClasses T vs = 1 :=
      labelClasses_eq_one_of_all_eq hvne (fun x hx y hy =>
        spans_to_labels (fun e he => sameLabel_of_mem he) (hTspan x hx y hy))
    have hTeq : labelClasses T vs + T.length = vs.dedup.length := by
      rw [hTone, hTlen, List.dedup_eq_self.2 hnd]
      omega
    have hpoint : ∀ j (hja : j < (kruskalSel [] (sortEdges edges)).length)
        (hjb : j < (sortEdges T).length),
        ((kruskalSel [] (sortEdges edges)).get ⟨j, hja⟩).weight ≤
          ((sortEdges T).get ⟨j, hjb⟩).weight := by
      intro j hja hjb
      by_contra hcon
      push_neg at hcon
      have hSle : ∀ t, t ∈ (sortEdges T).take (j + 1) →
          t.weight < ((kruskalSel [] (sortEdges edges)).get ⟨j, hja⟩).weight :=
        fun t ht => lt_of_le_of_lt (sorted_take_le hT'sorted hjb t ht) hcon
      have hSint : ∀ t, t ∈ (sortEdges T).take (j + 1) →
          labelsOf (pairsOf ((kruskalSel [] (sortEdges edges)).take j))
            t.start =
          labelsOf (pairsOf ((kruskalSel [] (sortEdges edges)).take j))
            t.stop := by
        intro t ht
        have htedges : t ∈ sortEdges edges := by
          have h1 : t ∈ sortEdges T :=
            (List.take_sublist (j + 1) (sortEdges T)).subset ht
          exact hmemsort t (hTsub.subset (hperm.subset h1))
        exact kruskalSel_lt_internal (sortEdges edges) []
          (sortEdges_sorted edges) (by intro f hf; cases hf)
          t htedges j hja (hSle t ht)
      have hcntR : labelClasses
          ((kruskalSel [] (sortEdges edges)).take j) vs + j = vs.length := by
        rw [hD]
        have hjD : j ≤ D.length := by
          rw [← hD]
          exact le_of_lt hja
        have h := labelClasses_indep_count (D.take j) [] vs
          (fun e he => hmemD e ((List.take_sublist j D).subset he))
          (indep_take j hindep)
        rw [List.nil_append, labelClasses_nil,
          List.dedup_eq_self.2 hnd, List.length_take, min_eq_left hjD] at h
        exact h
      have hcntS : labelClasses ((sortEdges T).take (j + 1)) vs + (j + 1) =
          vs.length := by
        have hsubS : ((sortEdges T).take (j + 1)).Subperm T :=
          ((List.take_sublist (j + 1) (sortEdges T)).subperm).trans
            hperm.subperm
        have h := labelClasses_subperm_eq hsubS hTeq
        rw [List.dedup_eq_self.2 hnd, List.length_take,
          min_eq_left (Nat.succ_le_of_lt hjb)] at h
        exact h
      have hle : labelClasses ((kruskalSel [] (sortEdges edges)).take j) vs ≤
          labelClasses ((sortEdges T).take (j + 1)) vs :=
        labelClasses_le_of_internal hSint
      omega
    have hlenRT : (kruskalSel [] (sortEdges edges)).length =
        (sortEdges T).length := by
      rw [hlen, hT'len, hTlen]
    have hsum := sumW_le_of_get_le _ _ hlenRT hpoint
    calc sumW (kruskalSel [] (sortEdges edges)) ≤ sumW (sortEdges T) := hsum
      _ = sumW T := sumW_perm hperm
  exact ⟨⟨kruskalSel [] (sortEdges edges),
      sumW (kruskalSel [] (sortEdges edges)),
      if c > 1 then .disconnected c else .spanning⟩,
    hrun, hlen, rfl, hRtree, fun T hT => hmin T hT⟩

/-- Witness for C1 at a concrete connected input. -/
theorem C1_witness :
    ∃ res, kruskal_mst [0, 1] ([⟨1, 0, 1⟩] : List (GraphEdge Nat)) = .ok res ∧
      res.forest.length = ([0, 1] : List Nat).length - 1 ∧
      res.total = sumW res.forest ∧
      IsSpanningTree [0, 1] [⟨1, 0, 1⟩] res.forest ∧
      (∀ T, IsSpanningTree [0, 1] [⟨1, 0, 1⟩] T → res.total ≤ sumW T) :=
  C1_minimum_spanning_tree [0, 1] [⟨1, 0, 1⟩] (by decide) (by decide)
    (by decide) (by decide) (by
      intro x hx y hy
      fin_cases hx <;> fin_cases hy
      · exact .refl 0
      · exact .rel ⟨⟨1, 0, 1⟩, List.mem_singleton_self _, Or.inl ⟨rfl, rfl⟩⟩
      · exact .symm
          (.rel ⟨⟨1, 0, 1⟩, List.mem_singleton_self _, Or.inl ⟨rfl, rfl⟩⟩)
      · exact .refl 1)

end KruskalSpec
